import Mathlib

/-!
# Verification of the LSM-tree key-value store (`src/lsm.py`)

Shallow embedding of the Python implementation.

Modelling conventions:

* Python `str` keys and values are modelled as `List Nat` (sequences of
  Unicode code points).  Python's `<`/`<=` on strings is lexicographic
  comparison of code points, which is exactly the `LinearOrder` on
  `List Nat` (`Mathlib.Data.List.Lex`).
* Python's built-in `hash` (used by `BloomFilter._hash` via
  `hash(key + str(seed))`) is process-randomised and unspecified; it is
  modelled by an arbitrary parameter `h : HashFn := Key → Nat → Nat`,
  i.e. every theorem quantifies over the hash family.  Concrete
  evaluations instantiate it with `h0` (a particular such function).
* Python `dict` (used for the memtable and for the `merged`/`result`
  dictionaries) is modelled as an association list in insertion order:
  `d[k] = v` updates the binding in place when `k` is present and
  appends it otherwise, exactly like Python dicts.
* `bisect.bisect_left` / `bisect.bisect_right` are Python standard
  library functions (not repository code); they are modelled by their
  documented specification on sorted lists: the number of elements
  `< x` (resp. `≤ x`).  Every index this program searches is sorted,
  and every theorem that quantifies over table states carries the
  sortedness invariant.

Two models of `SSTable` are developed:

* `SST` (in-memory view) is used inside the `LSMTree` model: the table
  carries the record list `_build` persists.  This abstracts the file
  round trip: `LSMTree` never reopens a file (`SSTable._load` is never
  reached from the tree — every table the tree creates is built with
  `data` given) and never deletes a file while the handle is still in a
  level list (`_compact_level` gathers all records *before* calling
  `cleanup`), so a table handle and its file contents coincide.
* `SSTable` (byte-accurate view) models `_build`, `_load`, `get`,
  `range`, `size_bytes` and `cleanup` down to the `struct` byte layout,
  including the backing file (`Option (List Nat)`, `none` = deleted)
  and the error behaviour of reads.
-/

set_option maxRecDepth 100000

/-- Keys are Python strings, modelled as lists of code points. -/
abbrev Key := List Nat

/-- Values are Python strings, modelled as lists of code points. -/
abbrev Value := List Nat

/-- The Python `hash`-based family `(key, seed) ↦ hash(key + str(seed))`,
kept abstract because Python's `hash` is unspecified/randomised. -/
abbrev HashFn := Key → Nat → Nat

/-- The upper sentinel `"~"` (code point 126) used by `_compact_level`
via `sst.range("", "~")`. -/
def tilde : Key := [126]

/-- A concrete hash function used for evaluating the model on concrete
inputs (one admissible instance of the abstract `HashFn`). -/
def h0 : HashFn := fun _ _ => 0

/-! ## Python dict as an association list (insertion order) -/

/-- `d[k] = v` on a Python dict: update in place if present, else append. -/
def dinsert : List (Key × Value) → Key → Value → List (Key × Value)
  | [], k, v => [(k, v)]
  | p :: t, k, v => if p.1 = k then (k, v) :: t else p :: dinsert t k v

/-- `d.get(k)` / `d[k]` on a Python dict. -/
def dlookup : List (Key × Value) → Key → Option Value
  | [], _ => none
  | p :: t, k => if p.1 = k then some p.2 else dlookup t k

/-! ## BloomFilter (`src/lsm.py` lines 7–40) -/

/-- `class BloomFilter`: a bit array stored, as in the Python code, as a
byte array (`bits`, one `Nat` in `[0,256)` per byte). -/
structure BloomFilter where
  size : Nat
  num_hashes : Nat
  bits : List Nat
  deriving DecidableEq, Repr

/-- `BloomFilter()` with the default parameters `size=8192`,
`num_hashes=4`, `bits = bytearray(1024)`. -/
def BloomFilter.new : BloomFilter := ⟨8192, 4, List.replicate 1024 0⟩

/-- `BloomFilter._hash(key, seed)`: `hash(key + str(seed)) % self.size`,
with the Python `hash` abstracted as `h`. -/
def BloomFilter.hashPos (h : HashFn) (b : BloomFilter) (k : Key) (seed : Nat) : Nat :=
  h k seed % b.size

/-- One iteration of the `add` loop: set bit `pos % 8` of byte
`pos // 8`.  Every filter this program builds has `size = 8192` and
1024 bytes of bits, so the byte index is always in range. -/
def BloomFilter.setProbe (h : HashFn) (k : Key) (b : BloomFilter) (i : Nat) : BloomFilter :=
  let pos := BloomFilter.hashPos h b k i
  { b with bits := b.bits.set (pos / 8) ((b.bits.getD (pos / 8) 0) ||| (1 <<< (pos % 8))) }

/-- `BloomFilter.add`: set the probe bit for each seed `i ∈ [0, num_hashes)`. -/
def BloomFilter.add (h : HashFn) (b : BloomFilter) (k : Key) : BloomFilter :=
  (List.range b.num_hashes).foldl (BloomFilter.setProbe h k) b

/-- One iteration of the `might_contain` loop: is the probe bit set? -/
def BloomFilter.probeSet (h : HashFn) (b : BloomFilter) (k : Key) (i : Nat) : Bool :=
  let pos := BloomFilter.hashPos h b k i
  (b.bits.getD (pos / 8) 0) &&& (1 <<< (pos % 8)) ≠ 0

/-- `BloomFilter.might_contain`: true iff all probe bits are set. -/
def BloomFilter.might_contain (h : HashFn) (b : BloomFilter) (k : Key) : Bool :=
  (List.range b.num_hashes).all (BloomFilter.probeSet h b k)

/-- The filter `_build` constructs: a fresh default filter with every
key of the list added (in list order). -/
def bloomOf (h : HashFn) (ks : List Key) : BloomFilter :=
  ks.foldl (fun b k => BloomFilter.add h b k) BloomFilter.new

/-! ## Sorting and binary search -/

/-- `sorted(data, key=lambda x: x[0])`.  The inputs sorted by this
program are `dict.items()` lists, whose keys are distinct, so the
tie-breaking order of the sort is immaterial. -/
def sortByKey (l : List (Key × Value)) : List (Key × Value) :=
  l.insertionSort (fun a b => a.1 ≤ b.1)

instance : IsTotal (Key × Value) (fun a b : Key × Value => a.1 ≤ b.1) :=
  ⟨fun a b => le_total a.1 b.1⟩

instance : IsTrans (Key × Value) (fun a b : Key × Value => a.1 ≤ b.1) :=
  ⟨fun _ _ _ h h' => le_trans h h'⟩

/-- `bisect.bisect_left(keys, x)` (Python standard library), modelled by
its specification on sorted lists: the number of keys `< x`. -/
def bisectLeft (keys : List Key) (x : Key) : Nat :=
  (keys.takeWhile (fun k => decide (k < x))).length

/-- `bisect.bisect_right(keys, x)` (Python standard library), modelled by
its specification on sorted lists: the number of keys `≤ x`. -/
def bisectRight (keys : List Key) (x : Key) : Nat :=
  (keys.takeWhile (fun k => decide (k ≤ x))).length

/-! ## SSTable, in-memory view (used by the `LSMTree` model)

The table carries the sorted record list `_build` writes to disk and the
bloom filter; `get`/`range` follow the code's control flow (filter check,
binary search on the index keys, then the value of the record the matching
index entry's offset points at — which is the record at the same position,
since `_build` zips `data_sorted` with `offsets`). -/

structure SST where
  records : List (Key × Value)
  bloom : BloomFilter
  deriving DecidableEq

/-- `SSTable(filename, data)` → `_build(data)`, in-memory view:
sort the records, add every key to a fresh filter. -/
def mkSST (h : HashFn) (data : List (Key × Value)) : SST :=
  let data_sorted := sortByKey data
  ⟨data_sorted, bloomOf h (data_sorted.map Prod.fst)⟩

/-- `SSTable.get` (lines 99–115), in-memory view.  The built table always
has a filter, so the `self.bloom is None` branch does not arise here. -/
def SST.get (h : HashFn) (t : SST) (k : Key) : Option Value :=
  if t.bloom.might_contain h k then
    let keys := t.records.map Prod.fst
    let pos := bisectLeft keys k
    if pos < keys.length ∧ keys.getD pos [] = k then
      some ((t.records.getD pos ([], [])).2)
    else none
  else none

/-- `SSTable.range` (lines 117–128), in-memory view: the bisect window
over the index keys, fetching each value via `get` and skipping `None`. -/
def SST.range (h : HashFn) (t : SST) (s e : Key) : List (Key × Value) :=
  let keys := t.records.map Prod.fst
  let left := bisectLeft keys s
  let right := bisectRight keys e
  ((keys.drop left).take (right - left)).foldl
    (fun acc k =>
      match t.get h k with
      | some v => acc ++ [(k, v)]
      | none => acc) []

/-- Records sorted by key (the SSTable invariant `_build` establishes). -/
def recsSorted (recs : List (Key × Value)) : Prop :=
  List.Pairwise (fun p q : Key × Value => p.1 ≤ q.1) recs

/-- Well-formedness of a built table: sorted records, no duplicate keys
(inputs come from dicts), and a filter that contains every stored key. -/
def SST.wf (h : HashFn) (t : SST) : Prop :=
  recsSorted t.records ∧ (t.records.map Prod.fst).Nodup ∧
    ∀ k ∈ t.records.map Prod.fst, t.bloom.might_contain h k = true

/-! ## LSMTree (`src/lsm.py` lines 137–215)

File names and the working directory are dropped from this view: every
table the tree holds is one it just built, `cleanup` coincides with
removing the handle from the level list (the code clears the level list
immediately after the `cleanup` loop, lines 180–183 and 189–191), and no
file is read after its `cleanup`. -/

structure LSMTree where
  memtable : List (Key × Value)
  memtable_limit : Nat
  levels : List (List SST)
  deriving DecidableEq

/-- `LSMTree(memtable_limit)`. -/
def LSMTree.new (limit : Nat) : LSMTree := ⟨[], limit, []⟩

/-- The gather loop of `_compact_level` (lines 168–170 and 173–175):
`for sst in tables: for k, v in sst.range("", "~"): merged[k] = v`,
starting from the dict `d`. -/
def gatherTables (h : HashFn) (tables : List SST) (d : List (Key × Value)) :
    List (Key × Value) :=
  tables.foldl (fun d t => (SST.range h t [] tilde).foldl (fun d p => dinsert d p.1 p.2) d) d

/-- The `merged` dict of `_compact_level` (lines 167–175): all records of
level `L` (tables in list order), then — when level `L+1` exists — all
records of `L+1`; later `merged[k] = v` assignments overwrite earlier
ones. -/
def compactMerged (h : HashFn) (st : LSMTree) (level : Nat) : List (Key × Value) :=
  let merged1 := gatherTables h (st.levels.getD level []) []
  if level + 1 < st.levels.length then
    gatherTables h (st.levels.getD (level + 1) []) merged1
  else merged1

/-- `LSMTree._compact_level` (lines 163–191): no-op when the level does
not exist or is empty; otherwise gather `merged`, ensure level `L+1`
exists, replace it with one table built from `merged` (the old `L+1`
tables are cleaned up and dropped), and clear level `L`. -/
def LSMTree.compact_level (h : HashFn) (st : LSMTree) (level : Nat) : LSMTree :=
  if st.levels.length ≤ level ∨ st.levels.getD level [] = [] then st
  else
    let merged := compactMerged h st level
    let levels1 := if st.levels.length ≤ level + 1 then st.levels ++ [[]] else st.levels
    let newT := mkSST h merged
    let levels2 := levels1.set (level + 1) [newT]
    let levels3 := levels2.set level []
    { st with levels := levels3 }

/-- `LSMTree._flush_memtable` (lines 148–161). -/
def LSMTree.flush_memtable (h : HashFn) (st : LSMTree) : LSMTree :=
  if st.memtable = [] then st
  else
    let levels0 := if st.levels = [] then st.levels ++ [[]] else st.levels
    let sst := mkSST h st.memtable
    let l0 := (levels0.getD 0 []) ++ [sst]
    let levels1 := levels0.set 0 l0
    let st1 : LSMTree := ⟨[], st.memtable_limit, levels1⟩
    if 2 < l0.length then LSMTree.compact_level h st1 0 else st1

/-- `LSMTree.put` (lines 143–146): write into the memtable dict, flush
when `len(memtable) >= memtable_limit`.  No length validation occurs. -/
def LSMTree.put (h : HashFn) (st : LSMTree) (k : Key) (v : Value) : LSMTree :=
  let st1 : LSMTree := { st with memtable := dinsert st.memtable k v }
  if st.memtable_limit ≤ st1.memtable.length then LSMTree.flush_memtable h st1 else st1

/-- `LSMTree.get` (lines 193–202): memtable first, then levels from the
*highest* index down (`range(len(levels)-1, -1, -1)`), and within each
level the tables in *forward* list order; first non-`None` wins. -/
def LSMTree.get (h : HashFn) (st : LSMTree) (k : Key) : Option Value :=
  match dlookup st.memtable k with
  | some v => some v
  | none => st.levels.reverse.findSome? (fun lvl => lvl.findSome? (fun t => SST.get h t k))

/-- `LSMTree.range` (lines 204–215): collect into a dict (memtable
first, then levels from the highest index down, tables in forward
order), then sort.  `sorted(result.items())` compares pairs, which on a
dict (distinct keys) is sorting by key. -/
def LSMTree.range (h : HashFn) (st : LSMTree) (s e : Key) : List (Key × Value) :=
  let d0 := st.memtable.foldl
    (fun d p => if s ≤ p.1 ∧ p.1 ≤ e then dinsert d p.1 p.2 else d) []
  let d := st.levels.reverse.foldl
    (fun d lvl => lvl.foldl
      (fun d t => (SST.range h t s e).foldl (fun d p => dinsert d p.1 p.2) d) d) d0
  sortByKey d

/-- A sequence of `put` calls, in order. -/
def applyPuts (h : HashFn) (st : LSMTree) (ops : List (Key × Value)) : LSMTree :=
  ops.foldl (fun s p => LSMTree.put h s p.1 p.2) st

/-- The keys stored in the tables of one level. -/
def lvlKeys (lvl : List SST) : List Key :=
  lvl.foldr (fun t a => t.records.map Prod.fst ++ a) []

/-- The keys stored across all levels of the tree. -/
def levelKeys (st : LSMTree) : List Key :=
  st.levels.foldr (fun lvl acc => lvlKeys lvl ++ acc) []

/-- Tree well-formedness: the memtable is a dict (distinct keys) and
every table in every level satisfies the build invariant.  These hold in
every reachable state. -/
def TreeWF (h : HashFn) (st : LSMTree) : Prop :=
  (st.memtable.map Prod.fst).Nodup ∧ ∀ lvl ∈ st.levels, ∀ t ∈ lvl, t.wf h

/-- `k` occurs nowhere in the tree. -/
def keyAbsent (st : LSMTree) (k : Key) : Prop :=
  (∀ p ∈ st.memtable, p.1 ≠ k) ∧ ∀ lvl ∈ st.levels, ∀ t ∈ lvl, ∀ p ∈ t.records, p.1 ≠ k

/-- Every record of `k` in any table carries value `v`. -/
def tablesUniform (st : LSMTree) (k : Key) (v : Value) : Prop :=
  ∀ lvl ∈ st.levels, ∀ t ∈ lvl, ∀ p ∈ t.records, p.1 = k → p.2 = v

/-- The single live binding of `k` is `v`: every record of `k` anywhere
carries `v`, and `(k, v)` is present in the memtable or in some table. -/
def keyVal (st : LSMTree) (k : Key) (v : Value) : Prop :=
  (∀ p ∈ st.memtable, p.1 = k → p.2 = v) ∧ tablesUniform st k v ∧
    (dlookup st.memtable k = some v ∨
      ∃ i, i < st.levels.length ∧ ∃ t ∈ st.levels.getD i [], (k, v) ∈ t.records)

instance (recs : List (Key × Value)) : Decidable (recsSorted recs) := by
  unfold recsSorted
  infer_instance

instance (h : HashFn) (t : SST) : Decidable (t.wf h) := by
  unfold SST.wf recsSorted
  infer_instance

instance (h : HashFn) (st : LSMTree) : Decidable (TreeWF h st) := by
  unfold TreeWF SST.wf recsSorted
  infer_instance

instance (st : LSMTree) (k : Key) : Decidable (keyAbsent st k) := by
  unfold keyAbsent
  infer_instance

instance (st : LSMTree) (k : Key) (v : Value) : Decidable (keyVal st k v) := by
  unfold keyVal tablesUniform
  infer_instance

/-! ## SSTable, byte-accurate view (`src/lsm.py` lines 42–135)

Bytes are `Nat`s in `[0,256)`; `str.encode()`/`bytes.decode()` are the
identity on the byte sequence.  `struct.pack`/`unpack` with formats
`'I'`/`'Q'` are 4/8-byte little-endian (x86 native order, no padding for
a single field).  A file is `Option (List Nat)`; `none` means the file
does not exist (`cleanup` ran, or the path was never written). -/

/-- `struct.pack('I', n)`: 4 little-endian bytes (exact for `n < 2^32`;
`struct` raises beyond that, which never happens for the index and
filter sizes this program packs). -/
def pack32 (n : Nat) : List Nat :=
  [n % 256, n / 256 % 256, n / 2 ^ 16 % 256, n / 2 ^ 24 % 256]

/-- `struct.pack('Q', n)`: 8 little-endian bytes. -/
def pack64 (n : Nat) : List Nat :=
  [n % 256, n / 256 % 256, n / 2 ^ 16 % 256, n / 2 ^ 24 % 256,
   n / 2 ^ 32 % 256, n / 2 ^ 40 % 256, n / 2 ^ 48 % 256, n / 2 ^ 56 % 256]

/-- `struct.unpack('I', bs)[0]` of (up to) 4 little-endian bytes. -/
def le32 (bs : List Nat) : Nat :=
  bs.getD 0 0 + 256 * bs.getD 1 0 + 2 ^ 16 * bs.getD 2 0 + 2 ^ 24 * bs.getD 3 0

/-- `struct.unpack('Q', bs)[0]` of (up to) 8 little-endian bytes. -/
def le64 (bs : List Nat) : Nat :=
  bs.getD 0 0 + 256 * bs.getD 1 0 + 2 ^ 16 * bs.getD 2 0 + 2 ^ 24 * bs.getD 3 0 +
    2 ^ 32 * bs.getD 4 0 + 2 ^ 40 * bs.getD 5 0 + 2 ^ 48 * bs.getD 6 0 + 2 ^ 56 * bs.getD 7 0

/-- `BloomFilter.serialize`: `struct.pack('II', size, num_hashes) + bits`. -/
def BloomFilter.serialize (b : BloomFilter) : List Nat :=
  pack32 b.size ++ pack32 b.num_hashes ++ b.bits

/-- `BloomFilter.deserialize`: size and hash count from the first 8
bytes, the rest as the bit array. -/
def BloomFilter.deserialize (data : List Nat) : BloomFilter :=
  ⟨le32 (data.take 4), le32 ((data.drop 4).take 4), data.drop 8⟩

deriving instance DecidableEq for Except

/-- Error kinds of the Python read/write paths. -/
inductive Err where
  /-- `FileNotFoundError`: `open()` on a path whose file was removed. -/
  | missingFile
  /-- `struct.error`: `unpack` applied to a read shorter than the format. -/
  | shortRead
  /-- `OSError`: `f.seek` to a negative position. -/
  | badSeek
  deriving DecidableEq, Repr

/-- `struct.unpack('I', f.read(4))` at byte position `i`: `f.read(4)`
returns fewer than 4 bytes at end of file and `unpack` then raises. -/
def readExact4 (bs : List Nat) (i : Nat) : Except Err Nat :=
  if i + 4 ≤ bs.length then .ok (le32 ((bs.drop i).take 4)) else .error .shortRead

/-- `struct.unpack('Q', f.read(8))` at byte position `i`. -/
def readExact8 (bs : List Nat) (i : Nat) : Except Err Nat :=
  if i + 8 ≤ bs.length then .ok (le64 ((bs.drop i).take 8)) else .error .shortRead

/-- The data region and index of `_build` (lines 57–70): records are
written sequentially, each record's starting offset (`f.tell()` before
the write) is paired with its key. -/
def buildData : List (Key × Value) → Nat → List Nat × List (Key × Nat)
  | [], _ => ([], [])
  | (k, v) :: t, off =>
    let record := pack32 k.length ++ k ++ pack32 v.length ++ v
    let rest := buildData t (off + record.length)
    (record ++ rest.1, (k, off) :: rest.2)

/-- The `index_data` blob of `_build` (lines 73–76): a 4-byte entry
count, then per entry a 4-byte key length, the key bytes and an 8-byte
offset. -/
def indexData (index : List (Key × Nat)) : List Nat :=
  pack32 index.length ++
    index.foldr (fun p acc => pack32 p.1.length ++ p.1 ++ pack64 p.2 ++ acc) []

/-- An `SSTable` handle together with its backing file. -/
structure SSTable where
  index : List (Key × Nat)
  bloom : Option BloomFilter
  file : Option (List Nat)
  deriving DecidableEq

/-- `SSTable(filename, data)` → `_build(data)` (lines 53–79): the file
ends up as data region, `index_data`, the 4-byte `len(index_data)`, and
the serialized filter — in that order. -/
def SSTable.build (h : HashFn) (data : List (Key × Value)) : SSTable :=
  let data_sorted := sortByKey data
  let built := buildData data_sorted 0
  let bl := bloomOf h (data_sorted.map Prod.fst)
  let idxBytes := indexData built.2
  ⟨built.2, some bl, some (built.1 ++ idxBytes ++ pack32 idxBytes.length ++ bl.serialize)⟩

/-- The entry-decoding loop of `_load` (lines 90–94).  Returns the
entries and the file position after the loop.  `f.read(key_len)` near
end of file returns the bytes that remain (no error) and advances the
position only by that many. -/
def readEntries (bs : List Nat) : Nat → Nat → Except Err (List (Key × Nat) × Nat)
  | pos, 0 => .ok ([], pos)
  | pos, count + 1 =>
    match readExact4 bs pos with
    | .error er => .error er
    | .ok klen =>
      let key := (bs.drop (pos + 4)).take klen
      let pos1 := min (pos + 4 + klen) bs.length
      match readExact8 bs pos1 with
      | .error er => .error er
      | .ok off =>
        match readEntries bs (pos1 + 8) count with
        | .error er => .error er
        | .ok rest => .ok ((key, off) :: rest.1, rest.2)

/-- `SSTable(filename)` → `_load` (lines 81–97): a missing file yields
an empty handle; otherwise the *last 4 bytes of the file* are read as
`index_size`, the count and entries are decoded from `index_size + 4`
bytes before the end, and the remaining tail (if at least 8 bytes) is
deserialized as the filter. -/
def SSTable.load (file : Option (List Nat)) : Except Err SSTable :=
  match file with
  | none => .ok ⟨[], none, none⟩
  | some bs =>
    let n := bs.length
    if n < 4 then .error .badSeek
    else
      let indexSize := le32 ((bs.drop (n - 4)).take 4)
      if n < 4 + indexSize then .error .badSeek
      else
        let start := n - 4 - indexSize
        match readExact4 bs start with
        | .error er => .error er
        | .ok count =>
          match readEntries bs (start + 4) count with
          | .error er => .error er
          | .ok entries =>
            let bloomData := bs.drop entries.2
            let bl := if 8 ≤ bloomData.length then some (BloomFilter.deserialize bloomData)
              else none
            .ok ⟨entries.1, bl, some bs⟩

/-- `SSTable.get` (lines 99–115), byte-accurate: filter check, binary
search of the index, then open the file and decode the record at the
entry's offset.  The value read (`f.read(value_len)`) is returned as-is
even if shorter than `value_len`. -/
def SSTable.get (h : HashFn) (t : SSTable) (k : Key) : Except Err (Option Value) :=
  match t.bloom with
  | none => .ok none
  | some bl =>
    if bl.might_contain h k then
      let keys := t.index.map Prod.fst
      let pos := bisectLeft keys k
      if pos < keys.length ∧ keys.getD pos [] = k then
        match t.file with
        | none => .error .missingFile
        | some bs =>
          let off := (t.index.getD pos ([], 0)).2
          match readExact4 bs off with
          | .error er => .error er
          | .ok klen =>
            match readExact4 bs (off + 4 + klen) with
            | .error er => .error er
            | .ok vlen => .ok (some ((bs.drop (off + 8 + klen)).take vlen))
      else .ok none
    else .ok none

/-- `SSTable.range` (lines 117–128), byte-accurate: for each index key
in the bisect window, fetch via `get` (errors propagate out of the
loop), appending pairs whose value is not `None`. -/
def SSTable.range (h : HashFn) (t : SSTable) (s e : Key) : Except Err (List (Key × Value)) :=
  let keys := t.index.map Prod.fst
  let left := bisectLeft keys s
  let right := bisectRight keys e
  ((keys.drop left).take (right - left)).foldlM
    (fun acc k =>
      match SSTable.get h t k with
      | .error er => .error er
      | .ok none => .ok acc
      | .ok (some v) => .ok (acc ++ [(k, v)])) []

/-- `SSTable.size_bytes` (lines 130–131): the file size, or 0 when the
file does not exist. -/
def SSTable.size_bytes (t : SSTable) : Nat :=
  match t.file with
  | none => 0
  | some bs => bs.length

/-- `SSTable.cleanup` (lines 133–135): delete the backing file.  The
in-memory `index` and `bloom` of the handle are untouched. -/
def SSTable.cleanup (t : SSTable) : SSTable := { t with file := none }

/-! ## Dict lemmas -/

theorem dlookup_dinsert_self (d : List (Key × Value)) (k : Key) (v : Value) :
    dlookup (dinsert d k v) k = some v := by
  induction d with
  | nil => simp [dinsert, dlookup]
  | cons p t ih =>
    by_cases h : p.1 = k
    · simp [dinsert, dlookup, h]
    · simp [dinsert, dlookup, h, ih]

theorem dlookup_dinsert_ne (d : List (Key × Value)) (k k' : Key) (v : Value)
    (h : k' ≠ k) : dlookup (dinsert d k v) k' = dlookup d k' := by
  induction d with
  | nil => simp [dinsert, dlookup, Ne.symm h]
  | cons p t ih =>
    by_cases hp : p.1 = k
    · subst hp
      simp [dinsert, dlookup, Ne.symm h]
    · simp only [dinsert, if_neg hp]
      by_cases hp' : p.1 = k'
      · simp [dlookup, hp']
      · simp [dlookup, hp', ih]

theorem mem_keys_dinsert (d : List (Key × Value)) (k k' : Key) (v : Value) :
    k' ∈ (dinsert d k v).map Prod.fst ↔ k' = k ∨ k' ∈ d.map Prod.fst := by
  induction d with
  | nil => simp [dinsert]
  | cons p t ih =>
    by_cases h : p.1 = k
    · subst h
      simp [dinsert]
    · simp only [dinsert, if_neg h, List.map_cons, List.mem_cons, ih]
      tauto

theorem mem_dinsert (d : List (Key × Value)) (k : Key) (v : Value) (p : Key × Value)
    (h : p ∈ dinsert d k v) : p = (k, v) ∨ p ∈ d := by
  induction d with
  | nil => simpa [dinsert] using h
  | cons q t ih =>
    by_cases hq : q.1 = k
    · simp only [dinsert, if_pos hq, List.mem_cons] at h
      rcases h with h | h
      · exact Or.inl h
      · exact Or.inr (List.mem_cons_of_mem _ h)
    · simp only [dinsert, if_neg hq, List.mem_cons] at h
      rcases h with h | h
      · exact Or.inr (h ▸ List.mem_cons_self _ _)
      · rcases ih h with h' | h'
        · exact Or.inl h'
        · exact Or.inr (List.mem_cons_of_mem _ h')

theorem dinsert_nodup_keys (d : List (Key × Value)) (k : Key) (v : Value)
    (h : (d.map Prod.fst).Nodup) : ((dinsert d k v).map Prod.fst).Nodup := by
  induction d with
  | nil => simp [dinsert]
  | cons p t ih =>
    by_cases hp : p.1 = k
    · subst hp
      simpa [dinsert] using h
    · simp only [List.map_cons, List.nodup_cons] at h
      simp only [dinsert, if_neg hp, List.map_cons, List.nodup_cons]
      refine ⟨fun hc => ?_, ih h.2⟩
      rcases (mem_keys_dinsert t k p.1 v).1 hc with h1 | h1
      · exact hp h1
      · exact h.1 h1

theorem dlookup_mem (d : List (Key × Value)) (k : Key) (v : Value)
    (h : dlookup d k = some v) : (k, v) ∈ d := by
  induction d with
  | nil => simp [dlookup] at h
  | cons p t ih =>
    obtain ⟨p1, p2⟩ := p
    by_cases hp : p1 = k
    · simp only [dlookup, if_pos hp] at h
      injection h with h2
      subst hp h2
      exact List.mem_cons_self _ _
    · simp only [dlookup, if_neg hp] at h
      exact List.mem_cons_of_mem _ (ih h)

theorem dlookup_eq_none_iff (d : List (Key × Value)) (k : Key) :
    dlookup d k = none ↔ k ∉ d.map Prod.fst := by
  induction d with
  | nil => simp [dlookup]
  | cons p t ih =>
    by_cases hp : p.1 = k
    · simp [dlookup, hp]
    · simp [dlookup, hp, ih, Ne.symm hp]

theorem dlookup_isSome_of_mem_keys (d : List (Key × Value)) (k : Key)
    (h : k ∈ d.map Prod.fst) : ∃ w, dlookup d k = some w := by
  cases hd : dlookup d k with
  | none => exact absurd h ((dlookup_eq_none_iff d k).1 hd)
  | some w => exact ⟨w, rfl⟩

/-! ## Sorting lemmas -/

theorem sortByKey_perm (l : List (Key × Value)) : List.Perm (sortByKey l) l :=
  List.perm_insertionSort _ l

theorem sortByKey_sorted (l : List (Key × Value)) :
    List.Pairwise (fun a b : Key × Value => a.1 ≤ b.1) (sortByKey l) :=
  List.sorted_insertionSort _ l

theorem sortByKey_mem (l : List (Key × Value)) (p : Key × Value) :
    p ∈ sortByKey l ↔ p ∈ l :=
  (sortByKey_perm l).mem_iff

theorem sortByKey_keys_perm (l : List (Key × Value)) :
    List.Perm ((sortByKey l).map Prod.fst) (l.map Prod.fst) :=
  (sortByKey_perm l).map _

theorem sortByKey_nodup_keys (l : List (Key × Value))
    (h : (l.map Prod.fst).Nodup) : ((sortByKey l).map Prod.fst).Nodup :=
  ((sortByKey_keys_perm l).nodup_iff).2 h

/-! ## Bisect window lemmas -/

theorem length_takeWhile_mono {α : Type} (p q : α → Bool) (l : List α)
    (h : ∀ a, p a = true → q a = true) :
    (l.takeWhile p).length ≤ (l.takeWhile q).length := by
  induction l with
  | nil => simp
  | cons a t ih =>
    simp only [List.takeWhile_cons]
    by_cases hp : p a = true
    · rw [if_pos hp, if_pos (h a hp)]
      simpa using ih
    · rw [if_neg hp]
      simp

theorem bisectLeft_cons (a : Key) (t : List Key) (s : Key) :
    bisectLeft (a :: t) s = if a < s then bisectLeft t s + 1 else 0 := by
  by_cases h : a < s <;> simp [bisectLeft, List.takeWhile_cons, h]

theorem bisectRight_cons (a : Key) (t : List Key) (e : Key) :
    bisectRight (a :: t) e = if a ≤ e then bisectRight t e + 1 else 0 := by
  by_cases h : a ≤ e <;> simp [bisectRight, List.takeWhile_cons, h]

theorem bisectRight_le_bisectLeft_of_lt (keys : List Key) (s e : Key) (h : e < s) :
    bisectRight keys e ≤ bisectLeft keys s := by
  refine length_takeWhile_mono _ _ keys fun a ha => ?_
  simp only [decide_eq_true_eq] at ha ⊢
  exact lt_of_le_of_lt ha h

theorem bisectLeft_eq_zero_of_forall_le (t : List Key) (s : Key)
    (h : ∀ k ∈ t, s ≤ k) : bisectLeft t s = 0 := by
  cases t with
  | nil => simp [bisectLeft]
  | cons b u =>
    rw [bisectLeft_cons, if_neg (not_lt.2 (h b (List.mem_cons_self _ _)))]

/-! ## Bloom filter soundness -/

theorem and_shift_ne_zero_iff (n r : Nat) : (n &&& 1 <<< r ≠ 0) ↔ n.testBit r := by
  rw [Nat.shiftLeft_eq, one_mul, Nat.and_two_pow]
  cases h : n.testBit r
  · simp
  · simp [(Nat.two_pow_pos r).ne']

theorem getD_set_eq_ite {α : Type} (l : List α) (i j : Nat) (x d : α) :
    (l.set i x).getD j d = if i = j ∧ i < l.length then x else l.getD j d := by
  by_cases hij : i = j
  · subst hij
    by_cases hlen : i < l.length
    · simp [List.getD_eq_getElem?_getD, List.getElem?_set_self, hlen]
    · rw [List.set_eq_of_length_le (not_lt.1 hlen)]
      simp [hlen]
  · simp [List.getD_eq_getElem?_getD, List.getElem?_set_ne hij, hij]

theorem setProbe_fields (h : HashFn) (k : Key) (b : BloomFilter) (i : Nat) :
    (b.setProbe h k i).size = b.size ∧ (b.setProbe h k i).num_hashes = b.num_hashes ∧
      (b.setProbe h k i).bits.length = b.bits.length := by
  simp [BloomFilter.setProbe]

theorem foldl_setProbe_fields (h : HashFn) (k : Key) (L : List Nat) :
    ∀ b : BloomFilter, (L.foldl (BloomFilter.setProbe h k) b).size = b.size ∧
      (L.foldl (BloomFilter.setProbe h k) b).num_hashes = b.num_hashes ∧
      (L.foldl (BloomFilter.setProbe h k) b).bits.length = b.bits.length := by
  induction L with
  | nil => intro b; simp
  | cons j L ih =>
    intro b
    have h1 := setProbe_fields h k b j
    have h2 := ih (b.setProbe h k j)
    simp only [List.foldl_cons]
    exact ⟨h2.1.trans h1.1, h2.2.1.trans h1.2.1, h2.2.2.trans h1.2.2⟩

theorem add_fields (h : HashFn) (b : BloomFilter) (k : Key) :
    (b.add h k).size = b.size ∧ (b.add h k).num_hashes = b.num_hashes ∧
      (b.add h k).bits.length = b.bits.length :=
  foldl_setProbe_fields h k _ b

/-- Setting a probe leaves any probe bit that was set, set. -/
theorem probeSet_setProbe_mono (h : HashFn) (b : BloomFilter) (k k' : Key) (i j : Nat)
    (hset : b.probeSet h k i = true) : (b.setProbe h k' j).probeSet h k i = true := by
  simp only [BloomFilter.probeSet, BloomFilter.hashPos, BloomFilter.setProbe,
    decide_eq_true_eq] at hset ⊢
  rw [and_shift_ne_zero_iff] at hset
  rw [getD_set_eq_ite]
  by_cases hc : h k' j % b.size / 8 = h k i % b.size / 8 ∧ h k' j % b.size / 8 < b.bits.length
  · rw [if_pos hc, hc.1, and_shift_ne_zero_iff, Nat.testBit_or, hset]
    simp
  · rw [if_neg hc, and_shift_ne_zero_iff]
    exact hset

/-- Setting probe `i` of key `k` sets that probe, provided the byte index
is in range (true whenever `size ≤ 8 * bits.length` and `0 < size`). -/
theorem probeSet_setProbe_self (h : HashFn) (b : BloomFilter) (k : Key) (i : Nat)
    (hsz : b.size ≤ 8 * b.bits.length) (hpos : 0 < b.size) :
    (b.setProbe h k i).probeSet h k i = true := by
  simp only [BloomFilter.probeSet, BloomFilter.hashPos, BloomFilter.setProbe,
    decide_eq_true_eq]
  set pos := h k i % b.size with hposdef
  have hlt : pos < b.size := Nat.mod_lt _ hpos
  have hbyte : pos / 8 < b.bits.length := by
    rw [Nat.div_lt_iff_lt_mul (by norm_num : (0:Nat) < 8)]
    calc pos < b.size := hlt
    _ ≤ 8 * b.bits.length := hsz
    _ = b.bits.length * 8 := Nat.mul_comm _ _
  rw [getD_set_eq_ite, if_pos ⟨rfl, hbyte⟩, and_shift_ne_zero_iff]
  simp [Nat.testBit_or]

theorem probeSet_foldl_mono (h : HashFn) (k k' : Key) (i : Nat) (L : List Nat) :
    ∀ b : BloomFilter, b.probeSet h k i = true →
      (L.foldl (BloomFilter.setProbe h k') b).probeSet h k i = true := by
  induction L with
  | nil => intro b hb; simpa using hb
  | cons j L ih =>
    intro b hb
    simp only [List.foldl_cons]
    exact ih _ (probeSet_setProbe_mono h b k k' i j hb)

theorem probeSet_foldl_self (h : HashFn) (k : Key) (L : List Nat) :
    ∀ b : BloomFilter, b.size ≤ 8 * b.bits.length → 0 < b.size →
      ∀ i ∈ L, (L.foldl (BloomFilter.setProbe h k) b).probeSet h k i = true := by
  induction L with
  | nil => intro b _ _ i hi; simp at hi
  | cons j L ih =>
    intro b hsz hpos i hi
    simp only [List.foldl_cons]
    have hfields := setProbe_fields h k b j
    rcases List.mem_cons.1 hi with rfl | hi'
    · exact probeSet_foldl_mono h k k i L _ (probeSet_setProbe_self h b k i hsz hpos)
    · exact ih _ (by rw [hfields.1, hfields.2.2]; exact hsz) (by rw [hfields.1]; exact hpos) i hi'

theorem might_contain_add_self (h : HashFn) (b : BloomFilter) (k : Key)
    (hsz : b.size ≤ 8 * b.bits.length) (hpos : 0 < b.size) :
    (b.add h k).might_contain h k = true := by
  have hfields := add_fields h b k
  simp only [BloomFilter.might_contain, List.all_eq_true]
  intro i hi
  rw [hfields.2.1] at hi
  exact probeSet_foldl_self h k (List.range b.num_hashes) b hsz hpos i hi

theorem might_contain_add_mono (h : HashFn) (b : BloomFilter) (k k' : Key)
    (hb : b.might_contain h k = true) : (b.add h k').might_contain h k = true := by
  have hfields := add_fields h b k'
  simp only [BloomFilter.might_contain, List.all_eq_true] at hb ⊢
  intro i hi
  rw [hfields.2.1] at hi
  exact probeSet_foldl_mono h k k' i _ b (hb i hi)

theorem might_contain_foldl_add_mono (h : HashFn) (k : Key) (ks : List Key) :
    ∀ b : BloomFilter, b.might_contain h k = true →
      (ks.foldl (fun b k' => BloomFilter.add h b k') b).might_contain h k = true := by
  induction ks with
  | nil => intro b hb; simpa using hb
  | cons k' ks ih =>
    intro b hb
    simp only [List.foldl_cons]
    exact ih _ (might_contain_add_mono h b k k' hb)

/-- The filter `_build` constructs contains every key that was added:
no false negatives. -/
theorem bloomOf_sound (h : HashFn) (ks : List Key) (k : Key) (hk : k ∈ ks) :
    (bloomOf h ks).might_contain h k = true := by
  have main : ∀ (ks' : List Key) (b : BloomFilter), b.size ≤ 8 * b.bits.length →
      0 < b.size → ∀ k0 ∈ ks',
      (ks'.foldl (fun b k' => BloomFilter.add h b k') b).might_contain h k0 = true := by
    intro ks'
    induction ks' with
    | nil => intro b _ _ k0 hk0; simp at hk0
    | cons x xs ihx =>
      intro b hsz hpos k0 hk0
      have hfields := add_fields h b x
      simp only [List.foldl_cons]
      rcases List.mem_cons.1 hk0 with rfl | hk0'
      · exact might_contain_foldl_add_mono h k0 xs _ (might_contain_add_self h b k0 hsz hpos)
      · exact ihx _ (by rw [hfields.1, hfields.2.2]; exact hsz)
          (by rw [hfields.1]; exact hpos) k0 hk0'
  exact main ks BloomFilter.new (by simp [BloomFilter.new]) (by simp [BloomFilter.new]) k hk

/-- On a sorted key list, the `[bisect_left s, bisect_right e)` window is
exactly the keys in `[s, e]`. -/
theorem bisect_window_eq_filter (keys : List Key) (s e : Key)
    (hs : List.Pairwise (fun a b : Key => a ≤ b) keys) :
    ((keys.drop (bisectLeft keys s)).take (bisectRight keys e - bisectLeft keys s)) =
      keys.filter (fun k => decide (s ≤ k) && decide (k ≤ e)) := by
  induction keys with
  | nil => simp [bisectLeft, bisectRight]
  | cons a t ih =>
    have hpw := (List.pairwise_cons.1 hs).1
    have ht := (List.pairwise_cons.1 hs).2
    rw [bisectLeft_cons, bisectRight_cons]
    by_cases ha : a < s
    · -- a is left of the window
      rw [if_pos ha]
      by_cases hae : a ≤ e
      · rw [if_pos hae, Nat.succ_sub_succ, List.drop_succ_cons, ih ht, List.filter_cons]
        rw [if_neg (by simp [not_le.2 ha])]
      · -- a < s and e < a: window and filter both empty
        have he : e < a := not_le.1 hae
        rw [if_neg hae, Nat.zero_sub, List.take_zero, List.filter_cons]
        rw [if_neg (by simp [hae])]
        symm
        refine List.filter_eq_nil_iff.2 fun k hk => ?_
        have : e < k := lt_of_lt_of_le he (hpw k hk)
        simp [not_le.2 this]
    · -- s ≤ a: window starts at the head
      have hsa : s ≤ a := not_lt.1 ha
      rw [if_neg ha]
      have hblt0 : bisectLeft t s = 0 :=
        bisectLeft_eq_zero_of_forall_le t s fun k hk => le_trans hsa (hpw k hk)
      by_cases hae : a ≤ e
      · rw [if_pos hae, Nat.sub_zero, List.drop_zero, List.take_succ_cons, List.filter_cons]
        rw [if_pos (by simp [hsa, hae])]
        have hwt := ih ht
        rw [hblt0, List.drop_zero, Nat.sub_zero] at hwt
        rw [hwt]
      · -- e < a: everything fails the filter, window empty
        have he : e < a := not_le.1 hae
        rw [if_neg hae, Nat.zero_sub, List.take_zero, List.filter_cons]
        rw [if_neg (by simp [hae])]
        symm
        refine List.filter_eq_nil_iff.2 fun k hk => ?_
        have : e < k := lt_of_lt_of_le he (hpw k hk)
        simp [not_le.2 this]

/-! ## SSTable (in-memory view) characterization -/

theorem dlookup_of_mem_nodup (recs : List (Key × Value)) (k : Key) (v : Value)
    (hnd : (recs.map Prod.fst).Nodup) (hm : (k, v) ∈ recs) :
    dlookup recs k = some v := by
  induction recs with
  | nil => simp at hm
  | cons p t ih =>
    simp only [List.map_cons, List.nodup_cons] at hnd
    rcases List.mem_cons.1 hm with rfl | hm'
    · simp [dlookup]
    · have hne : p.1 ≠ k := by
        intro hc
        exact hnd.1 (hc ▸ List.mem_map_of_mem Prod.fst hm')
      simp only [dlookup, if_neg hne]
      exact ih hnd.2 hm'

theorem keys_sorted_of_recsSorted (recs : List (Key × Value)) (h : recsSorted recs) :
    List.Pairwise (fun a b : Key => a ≤ b) (recs.map Prod.fst) :=
  List.Pairwise.map Prod.fst (fun _ _ hab => hab) h

theorem getD_mem_of_lt {α : Type} [Inhabited α] (l : List α) (n : Nat) (d : α)
    (h : n < l.length) : l.getD n d ∈ l := by
  rw [List.getD_eq_getElem?_getD, List.getElem?_eq_getElem h]
  simp [List.getElem_mem h]

theorem mkSST_records (h : HashFn) (data : List (Key × Value)) :
    (mkSST h data).records = sortByKey data := rfl

theorem mkSST_wf (h : HashFn) (data : List (Key × Value))
    (hnd : (data.map Prod.fst).Nodup) : (mkSST h data).wf h := by
  refine ⟨sortByKey_sorted data, sortByKey_nodup_keys data hnd, fun k hk => ?_⟩
  exact bloomOf_sound h _ k hk

/-- Core of the `get` path on a sorted table containing `k`: the bisect
position is in range, hits `k`, and the record there is the first (hence,
with distinct keys, the only) binding of `k`. -/
theorem bisect_find_core (recs : List (Key × Value)) (k : Key)
    (hs : recsSorted recs) (hk : k ∈ recs.map Prod.fst) :
    bisectLeft (recs.map Prod.fst) k < (recs.map Prod.fst).length ∧
      (recs.map Prod.fst).getD (bisectLeft (recs.map Prod.fst) k) [] = k ∧
      some ((recs.getD (bisectLeft (recs.map Prod.fst) k) ([], [])).2) = dlookup recs k := by
  induction recs with
  | nil => simp at hk
  | cons p t ih =>
    have hpw : ∀ q ∈ t, p.1 ≤ q.1 := (List.pairwise_cons.1 hs).1
    have ht : recsSorted t := (List.pairwise_cons.1 hs).2
    simp only [List.map_cons, bisectLeft_cons]
    by_cases hlt : p.1 < k
    · have hne : k ≠ p.1 := fun hc => absurd (hc ▸ hlt) (lt_irrefl _)
      have hkt : k ∈ t.map Prod.fst := by
        rcases List.mem_cons.1 hk with hc | hc
        · exact absurd hc hne
        · exact hc
      have hcore := ih ht hkt
      rw [if_pos hlt]
      refine ⟨Nat.succ_lt_succ hcore.1, ?_, ?_⟩
      · simpa using hcore.2.1
      · simp only [List.getD_cons_succ]
        rw [hcore.2.2]
        have hne' : p.1 ≠ k := fun hc => hne hc.symm
        simp [dlookup, hne']
    · have hpk : p.1 = k := by
        rcases List.mem_cons.1 hk with hc | hc
        · exact hc.symm
        · obtain ⟨q, hq, hqk⟩ := List.mem_map.1 hc
          exact le_antisymm (hqk ▸ hpw q hq) (not_lt.1 hlt)
      rw [if_neg hlt]
      exact ⟨Nat.succ_pos _, by simpa using hpk, by simp [dlookup, hpk]⟩

/-- On a well-formed table, `get` is dictionary lookup in the records. -/
theorem SST.get_eq_dlookup (h : HashFn) (t : SST) (k : Key) (hw : t.wf h) :
    SST.get h t k = dlookup t.records k := by
  by_cases hk : k ∈ t.records.map Prod.fst
  · have hmc := hw.2.2 k hk
    have hcore := bisect_find_core t.records k hw.1 hk
    simp only [SST.get, hmc, if_true]
    rw [if_pos ⟨hcore.1, hcore.2.1⟩]
    exact hcore.2.2
  · rw [(dlookup_eq_none_iff _ _).2 hk]
    simp only [SST.get]
    by_cases hmc : t.bloom.might_contain h k = true
    · rw [if_pos hmc]
      by_cases hcond : bisectLeft (t.records.map Prod.fst) k < (t.records.map Prod.fst).length ∧
          (t.records.map Prod.fst).getD (bisectLeft (t.records.map Prod.fst) k) [] = k
      · exfalso
        apply hk
        rw [← hcond.2]
        exact getD_mem_of_lt _ _ _ hcond.1
      · rw [if_neg hcond]
    · rw [if_neg hmc]

theorem foldl_append_filterMap (f : Key → Option Value) (ks : List Key)
    (acc : List (Key × Value)) :
    ks.foldl (fun acc k =>
      match f k with
      | some v => acc ++ [(k, v)]
      | none => acc) acc
      = acc ++ ks.filterMap (fun k => (f k).map (fun v => (k, v))) := by
  induction ks generalizing acc with
  | nil => simp
  | cons k ks ih =>
    simp only [List.foldl_cons, List.filterMap_cons]
    cases hf : f k with
    | none => simp [hf, ih]
    | some v => simp [hf, ih]

theorem filterMap_get_map_fst (h : HashFn) (t : SST) (hw : t.wf h)
    (F : List (Key × Value)) (hF : ∀ p ∈ F, p ∈ t.records) :
    (F.map Prod.fst).filterMap (fun k => (SST.get h t k).map (fun v => (k, v))) = F := by
  induction F with
  | nil => simp
  | cons p F ih =>
    have hp : SST.get h t p.1 = some p.2 := by
      rw [SST.get_eq_dlookup h t p.1 hw]
      exact dlookup_of_mem_nodup t.records p.1 p.2 hw.2.1
        (by simpa using hF p (List.mem_cons_self _ _))
    simp only [List.map_cons, List.filterMap_cons, hp, Option.map_some']
    rw [ih (fun q hq => hF q (List.mem_cons_of_mem _ hq))]

/-- On a well-formed table, `range s e` returns exactly the records with
keys in `[s, e]`, in stored (ascending-key) order. -/
theorem SST.range_eq_filter (h : HashFn) (t : SST) (s e : Key) (hw : t.wf h) :
    SST.range h t s e = t.records.filter (fun p => decide (s ≤ p.1) && decide (p.1 ≤ e)) := by
  have hkeys := keys_sorted_of_recsSorted t.records hw.1
  simp only [SST.range]
  rw [foldl_append_filterMap (SST.get h t), List.nil_append]
  rw [bisect_window_eq_filter (t.records.map Prod.fst) s e hkeys]
  have hfm : (t.records.map Prod.fst).filter (fun k => decide (s ≤ k) && decide (k ≤ e)) =
      (t.records.filter (fun p => decide (s ≤ p.1) && decide (p.1 ≤ e))).map Prod.fst := by
    rw [List.filter_map]
    rfl
  rw [hfm]
  exact filterMap_get_map_fst h t hw _ (fun p hp => List.mem_of_mem_filter hp)

/-! ## Folded dict lemmas and list helpers -/

theorem mem_foldl_dinsert (ps : List (Key × Value)) :
    ∀ (d : List (Key × Value)) (p : Key × Value),
      p ∈ ps.foldl (fun d q => dinsert d q.1 q.2) d → p ∈ d ∨ p ∈ ps := by
  induction ps with
  | nil => intro d p hp; exact Or.inl hp
  | cons q ps ih =>
    intro d p hp
    rcases ih _ p hp with hd | hps
    · rcases mem_dinsert d q.1 q.2 p hd with rfl | hd'
      · exact Or.inr (List.mem_cons_self _ _)
      · exact Or.inl hd'
    · exact Or.inr (List.mem_cons_of_mem _ hps)

theorem mem_keys_foldl_dinsert (ps : List (Key × Value)) :
    ∀ (d : List (Key × Value)) (k' : Key),
      k' ∈ (ps.foldl (fun d q => dinsert d q.1 q.2) d).map Prod.fst ↔
        k' ∈ d.map Prod.fst ∨ k' ∈ ps.map Prod.fst := by
  induction ps with
  | nil => intro d k'; simp
  | cons q ps ih =>
    intro d k'
    simp only [List.foldl_cons, ih, mem_keys_dinsert, List.map_cons, List.mem_cons]
    tauto

theorem nodup_foldl_dinsert (ps : List (Key × Value)) :
    ∀ d : List (Key × Value), (d.map Prod.fst).Nodup →
      ((ps.foldl (fun d q => dinsert d q.1 q.2) d).map Prod.fst).Nodup := by
  induction ps with
  | nil => intro d hd; exact hd
  | cons q ps ih =>
    intro d hd
    exact ih _ (dinsert_nodup_keys d q.1 q.2 hd)

theorem mem_of_keys_uniform (d : List (Key × Value)) (k : Key) (v : Value)
    (hk : k ∈ d.map Prod.fst) (hu : ∀ p ∈ d, p.1 = k → p.2 = v) : (k, v) ∈ d := by
  obtain ⟨w, hw⟩ := dlookup_isSome_of_mem_keys d k hk
  have hm := dlookup_mem d k w hw
  have hv : w = v := hu (k, w) hm rfl
  exact hv ▸ hm

theorem findSome?_none_or_some {α β : Type} (f : α → Option β) (v : β) (l : List α)
    (hall : ∀ a ∈ l, f a = none ∨ f a = some v) :
    l.findSome? f = none ∨ l.findSome? f = some v := by
  induction l with
  | nil => simp
  | cons a t ih =>
    rcases hall a (List.mem_cons_self _ _) with ha | ha
    · rw [List.findSome?_cons, ha]
      exact ih fun b hb => hall b (List.mem_cons_of_mem _ hb)
    · rw [List.findSome?_cons, ha]
      exact Or.inr rfl

theorem findSome?_some_of {α β : Type} (f : α → Option β) (v : β) (l : List α)
    (hall : ∀ a ∈ l, f a = none ∨ f a = some v) (hex : ∃ a ∈ l, f a = some v) :
    l.findSome? f = some v := by
  induction l with
  | nil => simp at hex
  | cons a t ih =>
    rcases hall a (List.mem_cons_self _ _) with ha | ha
    · rw [List.findSome?_cons, ha]
      refine ih (fun b hb => hall b (List.mem_cons_of_mem _ hb)) ?_
      obtain ⟨b, hb, hfb⟩ := hex
      rcases List.mem_cons.1 hb with rfl | hb'
      · rw [ha] at hfb; cases hfb
      · exact ⟨b, hb', hfb⟩
    · rw [List.findSome?_cons, ha]

theorem mem_set_self {α : Type} (ls : List α) (i : Nat) (x : α) (h : i < ls.length) :
    x ∈ ls.set i x := by
  have hlen : i < (ls.set i x).length := by simpa using h
  have hx : (ls.set i x)[i] = x := List.getElem_set_self hlen
  have hmem : (ls.set i x)[i] ∈ ls.set i x := List.getElem_mem hlen
  rwa [hx] at hmem

theorem getD_append_lt {α : Type} (l l' : List α) (j : Nat) (d : α) (h : j < l.length) :
    (l ++ l').getD j d = l.getD j d := by
  simp [List.getD_eq_getElem?_getD, List.getElem?_append, h]

theorem getD_append_len {α : Type} (l l' : List α) (d : α) :
    (l ++ l').getD l.length d = l'.getD 0 d := by
  simp [List.getD_eq_getElem?_getD, List.getElem?_append_right (le_refl l.length)]

/-! ## SSTable helpers over well-formed tables -/

theorem SST.get_none_or_some (h : HashFn) (t : SST) (k : Key) (v : Value) (hw : t.wf h)
    (hu : ∀ p ∈ t.records, p.1 = k → p.2 = v) :
    SST.get h t k = none ∨ SST.get h t k = some v := by
  rw [SST.get_eq_dlookup h t k hw]
  cases hd : dlookup t.records k with
  | none => exact Or.inl rfl
  | some w =>
    have hv : w = v := hu (k, w) (dlookup_mem _ _ _ hd) rfl
    exact Or.inr (by rw [hv])

theorem SST.get_some_of_mem (h : HashFn) (t : SST) (k : Key) (v : Value) (hw : t.wf h)
    (hm : (k, v) ∈ t.records) : SST.get h t k = some v := by
  rw [SST.get_eq_dlookup h t k hw]
  exact dlookup_of_mem_nodup t.records k v hw.2.1 hm

theorem SST.range_sub (h : HashFn) (t : SST) (s e : Key) (hw : t.wf h) (p : Key × Value)
    (hp : p ∈ SST.range h t s e) : p ∈ t.records := by
  rw [SST.range_eq_filter h t s e hw] at hp
  exact List.mem_of_mem_filter hp

/-- Over a well-formed table, the full compaction scan
`range("", "~")` contains exactly the records with key `≤ "~"`. -/
theorem SST.mem_range_full (h : HashFn) (t : SST) (hw : t.wf h) (p : Key × Value) :
    p ∈ SST.range h t [] tilde ↔ p ∈ t.records ∧ p.1 ≤ tilde := by
  rw [SST.range_eq_filter h t [] tilde hw, List.mem_filter]
  simp [List.nil_le]

/-! ## The compaction gather fold -/

theorem mem_foldl_tables (h : HashFn) (tables : List SST) :
    ∀ (d : List (Key × Value)) (p : Key × Value),
      p ∈ tables.foldl
          (fun d t => (SST.range h t [] tilde).foldl (fun d p => dinsert d p.1 p.2) d) d →
        p ∈ d ∨ ∃ t ∈ tables, p ∈ SST.range h t [] tilde := by
  induction tables with
  | nil => intro d p hp; exact Or.inl hp
  | cons t ts ih =>
    intro d p hp
    rcases ih _ p hp with hd | ⟨t', ht', hp'⟩
    · rcases mem_foldl_dinsert _ _ _ hd with hd' | hr
      · exact Or.inl hd'
      · exact Or.inr ⟨t, List.mem_cons_self _ _, hr⟩
    · exact Or.inr ⟨t', List.mem_cons_of_mem _ ht', hp'⟩

theorem mem_keys_foldl_tables (h : HashFn) (tables : List SST) :
    ∀ (d : List (Key × Value)) (k' : Key),
      k' ∈ (tables.foldl
          (fun d t => (SST.range h t [] tilde).foldl (fun d p => dinsert d p.1 p.2) d) d).map
            Prod.fst ↔
        k' ∈ d.map Prod.fst ∨
          ∃ t ∈ tables, k' ∈ (SST.range h t [] tilde).map Prod.fst := by
  induction tables with
  | nil => intro d k'; simp
  | cons t ts ih =>
    intro d k'
    simp only [List.foldl_cons, ih, mem_keys_foldl_dinsert]
    constructor
    · rintro (⟨hd | hr⟩ | ⟨t', ht', hk'⟩)
      · exact Or.inl hd
      · exact Or.inr ⟨t, List.mem_cons_self _ _, hr⟩
      · exact Or.inr ⟨t', List.mem_cons_of_mem _ ht', hk'⟩
    · rintro (hd | ⟨t', ht', hk'⟩)
      · exact Or.inl (Or.inl hd)
      · rcases List.mem_cons.1 ht' with rfl | ht''
        · exact Or.inl (Or.inr hk')
        · exact Or.inr ⟨t', ht'', hk'⟩

theorem nodup_foldl_tables (h : HashFn) (tables : List SST) :
    ∀ d : List (Key × Value), (d.map Prod.fst).Nodup →
      ((tables.foldl
          (fun d t => (SST.range h t [] tilde).foldl (fun d p => dinsert d p.1 p.2) d) d).map
            Prod.fst).Nodup := by
  induction tables with
  | nil => intro d hd; exact hd
  | cons t ts ih =>
    intro d hd
    exact ih _ (nodup_foldl_dinsert _ _ hd)

/-! ## `get` returns the live binding -/

theorem get_of_keyVal (h : HashFn) (st : LSMTree) (k : Key) (v : Value)
    (hwf : TreeWF h st) (hkv : keyVal st k v) : LSMTree.get h st k = some v := by
  unfold LSMTree.get
  cases hd : dlookup st.memtable k with
  | some w =>
    have hv : w = v := hkv.1 (k, w) (dlookup_mem _ _ _ hd) rfl
    simp [hv]
  | none =>
    rcases hkv.2.2 with hm | ⟨i, hi, t, ht, hmem⟩
    · rw [hd] at hm; cases hm
    · have hall : ∀ lvl ∈ st.levels, ∀ t' ∈ lvl,
          SST.get h t' k = none ∨ SST.get h t' k = some v := fun lvl hlvl t' hmt' =>
        SST.get_none_or_some h t' k v (hwf.2 lvl hlvl t' hmt')
          (fun p hp hpk => hkv.2.1 lvl hlvl t' hmt' p hp hpk)
      have hall_outer : ∀ lvl ∈ st.levels.reverse,
          (lvl.findSome? fun t' => SST.get h t' k) = none ∨
            (lvl.findSome? fun t' => SST.get h t' k) = some v := by
        intro lvl hlvl
        rw [List.mem_reverse] at hlvl
        exact findSome?_none_or_some _ v lvl (hall lvl hlvl)
      have hlvl_mem : st.levels.getD i [] ∈ st.levels := getD_mem_of_lt _ _ _ hi
      have hex : ∃ lvl ∈ st.levels.reverse,
          (lvl.findSome? fun t' => SST.get h t' k) = some v := by
        refine ⟨st.levels.getD i [], List.mem_reverse.2 hlvl_mem, ?_⟩
        refine findSome?_some_of _ v _ (hall _ hlvl_mem) ?_
        exact ⟨t, ht, SST.get_some_of_mem h t k v (hwf.2 _ hlvl_mem t ht) hmem⟩
      exact findSome?_some_of _ v _ hall_outer hex

/-! ## Compaction preservation -/

theorem mem_gatherTables (h : HashFn) (tables : List SST) (d : List (Key × Value))
    (p : Key × Value) (hp : p ∈ gatherTables h tables d) :
    p ∈ d ∨ ∃ t ∈ tables, p ∈ SST.range h t [] tilde :=
  mem_foldl_tables h tables d p hp

theorem mem_keys_gatherTables (h : HashFn) (tables : List SST) (d : List (Key × Value))
    (k' : Key) :
    k' ∈ (gatherTables h tables d).map Prod.fst ↔
      k' ∈ d.map Prod.fst ∨ ∃ t ∈ tables, k' ∈ (SST.range h t [] tilde).map Prod.fst :=
  mem_keys_foldl_tables h tables d k'

theorem nodup_gatherTables (h : HashFn) (tables : List SST) (d : List (Key × Value))
    (hd : (d.map Prod.fst).Nodup) : ((gatherTables h tables d).map Prod.fst).Nodup :=
  nodup_foldl_tables h tables d hd

theorem merged_nodup (h : HashFn) (st : LSMTree) (level : Nat) :
    ((compactMerged h st level).map Prod.fst).Nodup := by
  unfold compactMerged
  by_cases hc : level + 1 < st.levels.length
  · rw [if_pos hc]
    exact nodup_gatherTables h _ _ (nodup_gatherTables h _ _ (by simp))
  · rw [if_neg hc]
    exact nodup_gatherTables h _ _ (by simp)

theorem merged_mem (h : HashFn) (st : LSMTree) (level : Nat) (p : Key × Value)
    (hp : p ∈ compactMerged h st level) :
    (∃ t ∈ st.levels.getD level [], p ∈ SST.range h t [] tilde) ∨
      (level + 1 < st.levels.length ∧
        ∃ t ∈ st.levels.getD (level + 1) [], p ∈ SST.range h t [] tilde) := by
  unfold compactMerged at hp
  by_cases hc : level + 1 < st.levels.length
  · rw [if_pos hc] at hp
    rcases mem_gatherTables h _ _ p hp with hp1 | hnext
    · rcases mem_gatherTables h _ _ p hp1 with hp0 | hlvl
      · simp at hp0
      · exact Or.inl hlvl
    · exact Or.inr ⟨hc, hnext⟩
  · rw [if_neg hc] at hp
    rcases mem_gatherTables h _ _ p hp with hp0 | hlvl
    · simp at hp0
    · exact Or.inl hlvl

theorem merged_uniform (h : HashFn) (st : LSMTree) (level : Nat) (k : Key) (v : Value)
    (hwf : TreeWF h st) (hlen : level < st.levels.length) (hu : tablesUniform st k v) :
    ∀ p ∈ compactMerged h st level, p.1 = k → p.2 = v := by
  intro p hp hpk
  have hlvl_mem : st.levels.getD level [] ∈ st.levels := getD_mem_of_lt _ _ _ hlen
  rcases merged_mem h st level p hp with ⟨t, ht, hpr⟩ | ⟨hc, t, ht, hpr⟩
  · have hwt := hwf.2 _ hlvl_mem t ht
    exact hu _ hlvl_mem t ht p (SST.range_sub h t [] tilde hwt p hpr) hpk
  · have hmem1 : st.levels.getD (level + 1) [] ∈ st.levels := getD_mem_of_lt _ _ _ hc
    have hwt := hwf.2 _ hmem1 t ht
    exact hu _ hmem1 t ht p (SST.range_sub h t [] tilde hwt p hpr) hpk

/-- Keys of the compaction scan of a well-formed table. -/
theorem mem_range_keys_full (h : HashFn) (t : SST) (hw : t.wf h) (k : Key) :
    k ∈ (SST.range h t [] tilde).map Prod.fst ↔
      k ∈ t.records.map Prod.fst ∧ k ≤ tilde := by
  constructor
  · intro hk
    obtain ⟨p, hp, hpk⟩ := List.mem_map.1 hk
    have := (SST.mem_range_full h t hw p).1 hp
    exact ⟨hpk ▸ List.mem_map_of_mem Prod.fst this.1, hpk ▸ this.2⟩
  · rintro ⟨hk, hkt⟩
    obtain ⟨p, hp, hpk⟩ := List.mem_map.1 hk
    refine hpk ▸ List.mem_map_of_mem Prod.fst ?_
    exact (SST.mem_range_full h t hw p).2 ⟨hp, hpk.symm ▸ hkt⟩

theorem mem_keys_merged_of_level (h : HashFn) (st : LSMTree) (level : Nat) (k : Key)
    (t : SST) (ht : t ∈ st.levels.getD level [])
    (hkr : k ∈ (SST.range h t [] tilde).map Prod.fst) :
    k ∈ (compactMerged h st level).map Prod.fst := by
  unfold compactMerged
  by_cases hc : level + 1 < st.levels.length
  · rw [if_pos hc, mem_keys_gatherTables]
    exact Or.inl ((mem_keys_gatherTables h _ _ k).2 (Or.inr ⟨t, ht, hkr⟩))
  · rw [if_neg hc, mem_keys_gatherTables]
    exact Or.inr ⟨t, ht, hkr⟩

theorem mem_keys_merged_of_next (h : HashFn) (st : LSMTree) (level : Nat) (k : Key)
    (hc : level + 1 < st.levels.length) (t : SST) (ht : t ∈ st.levels.getD (level + 1) [])
    (hkr : k ∈ (SST.range h t [] tilde).map Prod.fst) :
    k ∈ (compactMerged h st level).map Prod.fst := by
  unfold compactMerged
  rw [if_pos hc, mem_keys_gatherTables]
  exact Or.inr ⟨t, ht, hkr⟩

theorem compact_level_eq (h : HashFn) (st : LSMTree) (level : Nat)
    (hlen : level < st.levels.length) (hne : st.levels.getD level [] ≠ []) :
    LSMTree.compact_level h st level =
      { st with levels :=
          ((if st.levels.length ≤ level + 1 then st.levels ++ [[]] else st.levels).set
            (level + 1) [mkSST h (compactMerged h st level)]).set level [] } := by
  unfold LSMTree.compact_level
  have hc : ¬(st.levels.length ≤ level ∨ st.levels.getD level [] = []) := by
    push_neg
    exact ⟨hlen, hne⟩
  rw [if_neg hc]

theorem keyVal_compact (h : HashFn) (st : LSMTree) (level : Nat) (k : Key) (v : Value)
    (hwf : TreeWF h st) (hk : k ≤ tilde) (hkv : keyVal st k v) :
    keyVal (LSMTree.compact_level h st level) k v := by
  by_cases hcond : st.levels.length ≤ level ∨ st.levels.getD level [] = []
  · unfold LSMTree.compact_level
    rw [if_pos hcond]
    exact hkv
  · push_neg at hcond
    obtain ⟨hlen', hne⟩ := hcond
    have hlen : level < st.levels.length := hlen'
    rw [compact_level_eq h st level hlen hne]
    set M := compactMerged h st level with hM
    set L1 := (if st.levels.length ≤ level + 1 then st.levels ++ [[]] else st.levels) with hL1
    set newT := mkSST h M with hnewT
    have hL1len : level + 1 < L1.length := by
      rw [hL1]
      by_cases hc : st.levels.length ≤ level + 1
      · rw [if_pos hc]
        simp only [List.length_append, List.length_cons, List.length_nil]
        omega
      · rw [if_neg hc]
        omega
    have hstL1 : st.levels.length ≤ L1.length := by
      rw [hL1]
      by_cases hc : st.levels.length ≤ level + 1
      · rw [if_pos hc]; simp
      · rw [if_neg hc]
    have hL1getD : ∀ j, j < st.levels.length → L1.getD j [] = st.levels.getD j [] := by
      intro j hj
      rw [hL1]
      by_cases hc : st.levels.length ≤ level + 1
      · rw [if_pos hc]
        exact getD_append_lt _ _ _ _ hj
      · rw [if_neg hc]
    have hget3 : ∀ j, ((L1.set (level + 1) [newT]).set level []).getD j ([] : List SST) =
        if level = j then [] else if level + 1 = j then [newT] else L1.getD j [] := by
      intro j
      rw [getD_set_eq_ite]
      by_cases h1 : level = j
      · rw [if_pos ⟨h1, by simpa using lt_trans (Nat.lt_succ_self level) hL1len⟩, if_pos h1]
      · rw [if_neg (by tauto), if_neg h1, getD_set_eq_ite]
        by_cases h2 : level + 1 = j
        · rw [if_pos ⟨h2, hL1len⟩, if_pos h2]
        · rw [if_neg (by tauto), if_neg h2]
    have hlen3 : ((L1.set (level + 1) [newT]).set level []).length = L1.length := by
      simp
    have hmem3 : ∀ lvl ∈ (L1.set (level + 1) [newT]).set level [],
        lvl = [] ∨ lvl = [newT] ∨ lvl ∈ st.levels := by
      intro lvl hlvl
      rcases List.mem_or_eq_of_mem_set hlvl with hlvl1 | rfl
      · rcases List.mem_or_eq_of_mem_set hlvl1 with hlvl2 | rfl
        · rw [hL1] at hlvl2
          by_cases hc : st.levels.length ≤ level + 1
          · rw [if_pos hc] at hlvl2
            rcases List.mem_append.1 hlvl2 with h' | h'
            · exact Or.inr (Or.inr h')
            · simp at h'
              exact Or.inl h'
          · rw [if_neg hc] at hlvl2
            exact Or.inr (Or.inr hlvl2)
        · exact Or.inr (Or.inl rfl)
      · exact Or.inl rfl
    have hMuniform : ∀ p ∈ M, p.1 = k → p.2 = v :=
      merged_uniform h st level k v hwf hlen hkv.2.1
    refine ⟨hkv.1, ?_, ?_⟩
    · -- tablesUniform
      intro lvl hlvl t ht p hp hpk
      rcases hmem3 lvl hlvl with rfl | rfl | hlvl'
      · simp at ht
      · have ht' : t = newT := by simpa using ht
        subst ht'
        rw [hnewT, mkSST_records] at hp
        exact hMuniform p ((sortByKey_mem M p).1 hp) hpk
      · exact hkv.2.1 lvl hlvl' t ht p hp hpk
    · -- presence
      rcases hkv.2.2 with hm | ⟨i, hi, t, hti, hmem⟩
      · exact Or.inl hm
      · have hpresence_new : ∀ (hkM : k ∈ M.map Prod.fst),
            ∃ i, i < ((L1.set (level + 1) [newT]).set level []).length ∧
              ∃ t ∈ ((L1.set (level + 1) [newT]).set level []).getD i [],
                (k, v) ∈ t.records := by
          intro hkM
          have hkvM : (k, v) ∈ M := mem_of_keys_uniform M k v hkM hMuniform
          refine ⟨level + 1, by rw [hlen3]; exact hL1len, newT, ?_, ?_⟩
          · rw [hget3 (level + 1), if_neg (Nat.ne_of_lt (Nat.lt_succ_self level)), if_pos rfl]
            exact List.mem_singleton_self _
          · rw [hnewT, mkSST_records]
            exact (sortByKey_mem M (k, v)).2 hkvM
        by_cases hil : i = level
        · subst hil
          have hlvl_mem : st.levels.getD i [] ∈ st.levels := getD_mem_of_lt _ _ _ hi
          have hwt := hwf.2 _ hlvl_mem t hti
          have hkr : k ∈ (SST.range h t [] tilde).map Prod.fst :=
            (mem_range_keys_full h t hwt k).2 ⟨List.mem_map_of_mem Prod.fst hmem, hk⟩
          exact Or.inr (hpresence_new (mem_keys_merged_of_level h st i k t hti hkr))
        · by_cases hil1 : i = level + 1
          · subst hil1
            have hlvl_mem : st.levels.getD (level + 1) [] ∈ st.levels :=
              getD_mem_of_lt _ _ _ hi
            have hwt := hwf.2 _ hlvl_mem t hti
            have hkr : k ∈ (SST.range h t [] tilde).map Prod.fst :=
              (mem_range_keys_full h t hwt k).2 ⟨List.mem_map_of_mem Prod.fst hmem, hk⟩
            exact Or.inr (hpresence_new (mem_keys_merged_of_next h st level k hi t hti hkr))
          · refine Or.inr ⟨i, by rw [hlen3]; exact lt_of_lt_of_le hi hstL1, t, ?_, hmem⟩
            rw [hget3 i, if_neg (fun hc => hil hc.symm),
              if_neg (fun hc => hil1 hc.symm), hL1getD i hi]
            exact hti

theorem TreeWF_compact (h : HashFn) (st : LSMTree) (level : Nat)
    (hwf : TreeWF h st) : TreeWF h (LSMTree.compact_level h st level) := by
  by_cases hcond : st.levels.length ≤ level ∨ st.levels.getD level [] = []
  · unfold LSMTree.compact_level
    rw [if_pos hcond]
    exact hwf
  · push_neg at hcond
    obtain ⟨hlen, hne⟩ := hcond
    rw [compact_level_eq h st level hlen hne]
    set M := compactMerged h st level with hM
    set L1 := (if st.levels.length ≤ level + 1 then st.levels ++ [[]] else st.levels) with hL1
    set newT := mkSST h M with hnewT
    have hmem3 : ∀ lvl ∈ (L1.set (level + 1) [newT]).set level [],
        lvl = [] ∨ lvl = [newT] ∨ lvl ∈ st.levels := by
      intro lvl hlvl
      rcases List.mem_or_eq_of_mem_set hlvl with hlvl1 | rfl
      · rcases List.mem_or_eq_of_mem_set hlvl1 with hlvl2 | rfl
        · rw [hL1] at hlvl2
          by_cases hc : st.levels.length ≤ level + 1
          · rw [if_pos hc] at hlvl2
            rcases List.mem_append.1 hlvl2 with h' | h'
            · exact Or.inr (Or.inr h')
            · simp at h'
              exact Or.inl h'
          · rw [if_neg hc] at hlvl2
            exact Or.inr (Or.inr hlvl2)
        · exact Or.inr (Or.inl rfl)
      · exact Or.inl rfl
    refine ⟨hwf.1, ?_⟩
    intro lvl hlvl t ht
    rcases hmem3 lvl hlvl with rfl | rfl | hlvl'
    · simp at ht
    · have ht' : t = newT := by simpa using ht
      subst ht'
      exact mkSST_wf h M (merged_nodup h st level)
    · exact hwf.2 lvl hlvl' t ht

theorem keyAbsent_compact (h : HashFn) (st : LSMTree) (level : Nat) (k : Key)
    (hwf : TreeWF h st) (habs : keyAbsent st k) :
    keyAbsent (LSMTree.compact_level h st level) k := by
  by_cases hcond : st.levels.length ≤ level ∨ st.levels.getD level [] = []
  · unfold LSMTree.compact_level
    rw [if_pos hcond]
    exact habs
  · push_neg at hcond
    obtain ⟨hlen, hne⟩ := hcond
    rw [compact_level_eq h st level hlen hne]
    set M := compactMerged h st level with hM
    set L1 := (if st.levels.length ≤ level + 1 then st.levels ++ [[]] else st.levels) with hL1
    set newT := mkSST h M with hnewT
    have hmem3 : ∀ lvl ∈ (L1.set (level + 1) [newT]).set level [],
        lvl = [] ∨ lvl = [newT] ∨ lvl ∈ st.levels := by
      intro lvl hlvl
      rcases List.mem_or_eq_of_mem_set hlvl with hlvl1 | rfl
      · rcases List.mem_or_eq_of_mem_set hlvl1 with hlvl2 | rfl
        · rw [hL1] at hlvl2
          by_cases hc : st.levels.length ≤ level + 1
          · rw [if_pos hc] at hlvl2
            rcases List.mem_append.1 hlvl2 with h' | h'
            · exact Or.inr (Or.inr h')
            · simp at h'
              exact Or.inl h'
          · rw [if_neg hc] at hlvl2
            exact Or.inr (Or.inr hlvl2)
        · exact Or.inr (Or.inl rfl)
      · exact Or.inl rfl
    refine ⟨habs.1, ?_⟩
    intro lvl hlvl t ht p hp
    rcases hmem3 lvl hlvl with rfl | rfl | hlvl'
    · simp at ht
    · have ht' : t = newT := by simpa using ht
      subst ht'
      rw [hnewT, mkSST_records] at hp
      have hpM : p ∈ M := (sortByKey_mem M p).1 hp
      rcases merged_mem h st level p hpM with ⟨t', ht', hpr⟩ | ⟨hc, t', ht', hpr⟩
      · have hlvl_mem : st.levels.getD level [] ∈ st.levels := getD_mem_of_lt _ _ _ hlen
        have hwt := hwf.2 _ hlvl_mem t' ht'
        exact habs.2 _ hlvl_mem t' ht' p (SST.range_sub h t' [] tilde hwt p hpr)
      · have hlvl_mem : st.levels.getD (level + 1) [] ∈ st.levels := getD_mem_of_lt _ _ _ hc
        have hwt := hwf.2 _ hlvl_mem t' ht'
        exact habs.2 _ hlvl_mem t' ht' p (SST.range_sub h t' [] tilde hwt p hpr)
    · exact habs.2 lvl hlvl' t ht p hp

/-! ## Flush and put preservation -/

theorem flush_memtable_eq (h : HashFn) (st : LSMTree) (hne : st.memtable ≠ []) :
    LSMTree.flush_memtable h st =
      (if 2 < ((if st.levels = [] then st.levels ++ [[]] else st.levels).getD 0 [] ++
            [mkSST h st.memtable]).length
        then LSMTree.compact_level h
          ⟨[], st.memtable_limit,
            (if st.levels = [] then st.levels ++ [[]] else st.levels).set 0
              ((if st.levels = [] then st.levels ++ [[]] else st.levels).getD 0 [] ++
                [mkSST h st.memtable])⟩ 0
        else
          ⟨[], st.memtable_limit,
            (if st.levels = [] then st.levels ++ [[]] else st.levels).set 0
              ((if st.levels = [] then st.levels ++ [[]] else st.levels).getD 0 [] ++
                [mkSST h st.memtable])⟩) := by
  unfold LSMTree.flush_memtable
  rw [if_neg hne]

theorem levels0_cases (st : LSMTree)
    (lvl : List SST) (hlvl : lvl ∈ (if st.levels = [] then st.levels ++ [[]] else st.levels)) :
    lvl = [] ∨ lvl ∈ st.levels := by
  by_cases hc : st.levels = []
  · rw [if_pos hc, hc] at hlvl
    simp at hlvl
    exact Or.inl hlvl
  · rw [if_neg hc] at hlvl
    exact Or.inr hlvl

theorem levels0_getD0 (st : LSMTree) :
    (if st.levels = [] then st.levels ++ [[]] else st.levels).getD 0 [] = st.levels.getD 0 [] := by
  by_cases hc : st.levels = []
  · rw [if_pos hc, hc]
    rfl
  · rw [if_neg hc]

theorem levels0_len_pos (st : LSMTree) :
    0 < (if st.levels = [] then st.levels ++ [[]] else st.levels).length := by
  by_cases hc : st.levels = []
  · rw [if_pos hc, hc]
    simp
  · rw [if_neg hc]
    exact List.length_pos.2 hc

theorem TreeWF_flush (h : HashFn) (st : LSMTree) (hwf : TreeWF h st) :
    TreeWF h (LSMTree.flush_memtable h st) := by
  by_cases hemp : st.memtable = []
  · unfold LSMTree.flush_memtable
    rw [if_pos hemp]
    exact hwf
  · rw [flush_memtable_eq h st hemp]
    set levels0 := (if st.levels = [] then st.levels ++ [[]] else st.levels) with hlev0
    set sst := mkSST h st.memtable with hsst
    set l0 := levels0.getD 0 [] ++ [sst] with hl0
    have hwf1 : TreeWF h ⟨[], st.memtable_limit, levels0.set 0 l0⟩ := by
      refine ⟨by simp, ?_⟩
      intro lvl hlvl t ht
      rcases List.mem_or_eq_of_mem_set hlvl with hlvl0 | rfl
      · rcases levels0_cases st lvl (hlev0 ▸ hlvl0) with rfl | hst
        · simp at ht
        · exact hwf.2 lvl hst t ht
      · rcases List.mem_append.1 ht with ht0 | hts
        · rw [hlev0, levels0_getD0] at ht0
          by_cases hc : st.levels = []
          · rw [hc] at ht0
            simp at ht0
          · have h0 : st.levels.getD 0 [] ∈ st.levels :=
              getD_mem_of_lt _ _ _ (List.length_pos.2 hc)
            exact hwf.2 _ h0 t ht0
        · have ht' : t = sst := by simpa using hts
          subst ht'
          exact mkSST_wf h st.memtable hwf.1
    by_cases hc2 : 2 < l0.length
    · rw [if_pos hc2]
      exact TreeWF_compact h _ 0 hwf1
    · rw [if_neg hc2]
      exact hwf1

theorem keyVal_flush (h : HashFn) (st : LSMTree) (k : Key) (v : Value)
    (hwf : TreeWF h st) (hk : k ≤ tilde) (hkv : keyVal st k v) :
    keyVal (LSMTree.flush_memtable h st) k v := by
  by_cases hemp : st.memtable = []
  · unfold LSMTree.flush_memtable
    rw [if_pos hemp]
    exact hkv
  · rw [flush_memtable_eq h st hemp]
    set levels0 := (if st.levels = [] then st.levels ++ [[]] else st.levels) with hlev0
    set sst := mkSST h st.memtable with hsst
    set l0 := levels0.getD 0 [] ++ [sst] with hl0
    have hwf1 : TreeWF h ⟨[], st.memtable_limit, levels0.set 0 l0⟩ := by
      refine ⟨by simp, ?_⟩
      intro lvl hlvl t ht
      rcases List.mem_or_eq_of_mem_set hlvl with hlvl0 | rfl
      · rcases levels0_cases st lvl (hlev0 ▸ hlvl0) with rfl | hst
        · simp at ht
        · exact hwf.2 lvl hst t ht
      · rcases List.mem_append.1 ht with ht0 | hts
        · rw [hlev0, levels0_getD0] at ht0
          by_cases hc : st.levels = []
          · rw [hc] at ht0
            simp at ht0
          · have h0 : st.levels.getD 0 [] ∈ st.levels :=
              getD_mem_of_lt _ _ _ (List.length_pos.2 hc)
            exact hwf.2 _ h0 t ht0
        · have ht' : t = sst := by simpa using hts
          subst ht'
          exact mkSST_wf h st.memtable hwf.1
    have hkv1 : keyVal ⟨[], st.memtable_limit, levels0.set 0 l0⟩ k v := by
      refine ⟨by simp, ?_, ?_⟩
      · -- tablesUniform
        intro lvl hlvl t ht p hp hpk
        rcases List.mem_or_eq_of_mem_set hlvl with hlvl0 | rfl
        · rcases levels0_cases st lvl (hlev0 ▸ hlvl0) with rfl | hst
          · simp at ht
          · exact hkv.2.1 lvl hst t ht p hp hpk
        · rcases List.mem_append.1 ht with ht0 | hts
          · rw [hlev0, levels0_getD0] at ht0
            by_cases hc : st.levels = []
            · rw [hc] at ht0
              simp at ht0
            · have h0 : st.levels.getD 0 [] ∈ st.levels :=
                getD_mem_of_lt _ _ _ (List.length_pos.2 hc)
              exact hkv.2.1 _ h0 t ht0 p hp hpk
          · have ht' : t = sst := by simpa using hts
            subst ht'
            rw [hsst, mkSST_records] at hp
            exact hkv.1 p ((sortByKey_mem _ p).1 hp) hpk
      · -- presence moves into the new L0 table, or stays where it was
        have hset0 : (levels0.set 0 l0).getD 0 ([] : List SST) = l0 := by
          rw [getD_set_eq_ite, if_pos ⟨rfl, hlev0 ▸ levels0_len_pos st⟩]
        rcases hkv.2.2 with hm | ⟨i, hi, t, hti, hmem⟩
        · refine Or.inr ⟨0, ?_, sst, ?_, ?_⟩
          · simpa using hlev0 ▸ levels0_len_pos st
          · rw [hset0, hl0]
            exact List.mem_append_right _ (List.mem_singleton_self _)
          · rw [hsst, mkSST_records]
            exact (sortByKey_mem _ _).2 (dlookup_mem _ _ _ hm)
        · have hstne : st.levels ≠ [] := List.length_pos.1 (by omega)
          have hlev0eq : levels0 = st.levels := by rw [hlev0, if_neg hstne]
          by_cases hi0 : i = 0
          · subst hi0
            refine Or.inr ⟨0, ?_, t, ?_, hmem⟩
            · simpa using hlev0 ▸ levels0_len_pos st
            · rw [hset0, hl0, hlev0, levels0_getD0]
              exact List.mem_append_left _ hti
          · refine Or.inr ⟨i, ?_, t, ?_, hmem⟩
            · simpa [hlev0eq] using hi
            · rw [getD_set_eq_ite, if_neg (by tauto), hlev0eq]
              exact hti
    by_cases hc2 : 2 < l0.length
    · rw [if_pos hc2]
      exact keyVal_compact h _ 0 k v hwf1 hk hkv1
    · rw [if_neg hc2]
      exact hkv1

theorem keyAbsent_flush (h : HashFn) (st : LSMTree) (k : Key)
    (hwf : TreeWF h st) (habs : keyAbsent st k) :
    keyAbsent (LSMTree.flush_memtable h st) k := by
  by_cases hemp : st.memtable = []
  · unfold LSMTree.flush_memtable
    rw [if_pos hemp]
    exact habs
  · rw [flush_memtable_eq h st hemp]
    set levels0 := (if st.levels = [] then st.levels ++ [[]] else st.levels) with hlev0
    set sst := mkSST h st.memtable with hsst
    set l0 := levels0.getD 0 [] ++ [sst] with hl0
    have habs1 : keyAbsent ⟨[], st.memtable_limit, levels0.set 0 l0⟩ k := by
      refine ⟨by simp, ?_⟩
      intro lvl hlvl t ht p hp
      rcases List.mem_or_eq_of_mem_set hlvl with hlvl0 | rfl
      · rcases levels0_cases st lvl (hlev0 ▸ hlvl0) with rfl | hst
        · simp at ht
        · exact habs.2 lvl hst t ht p hp
      · rcases List.mem_append.1 ht with ht0 | hts
        · rw [hlev0, levels0_getD0] at ht0
          by_cases hc : st.levels = []
          · rw [hc] at ht0
            simp at ht0
          · have h0 : st.levels.getD 0 [] ∈ st.levels :=
              getD_mem_of_lt _ _ _ (List.length_pos.2 hc)
            exact habs.2 _ h0 t ht0 p hp
        · have ht' : t = sst := by simpa using hts
          subst ht'
          rw [hsst, mkSST_records] at hp
          exact habs.1 p ((sortByKey_mem _ p).1 hp)
    have hwf1 : TreeWF h ⟨[], st.memtable_limit, levels0.set 0 l0⟩ := by
      refine ⟨by simp, ?_⟩
      intro lvl hlvl t ht
      rcases List.mem_or_eq_of_mem_set hlvl with hlvl0 | rfl
      · rcases levels0_cases st lvl (hlev0 ▸ hlvl0) with rfl | hst
        · simp at ht
        · exact hwf.2 lvl hst t ht
      · rcases List.mem_append.1 ht with ht0 | hts
        · rw [hlev0, levels0_getD0] at ht0
          by_cases hc : st.levels = []
          · rw [hc] at ht0
            simp at ht0
          · have h0 : st.levels.getD 0 [] ∈ st.levels :=
              getD_mem_of_lt _ _ _ (List.length_pos.2 hc)
            exact hwf.2 _ h0 t ht0
        · have ht' : t = sst := by simpa using hts
          subst ht'
          exact mkSST_wf h st.memtable hwf.1
    by_cases hc2 : 2 < l0.length
    · rw [if_pos hc2]
      exact keyAbsent_compact h _ 0 k hwf1 habs1
    · rw [if_neg hc2]
      exact habs1

theorem TreeWF_put (h : HashFn) (st : LSMTree) (k' : Key) (v' : Value)
    (hwf : TreeWF h st) : TreeWF h (LSMTree.put h st k' v') := by
  unfold LSMTree.put
  have hwf1 : TreeWF h { st with memtable := dinsert st.memtable k' v' } :=
    ⟨dinsert_nodup_keys _ _ _ hwf.1, hwf.2⟩
  by_cases hc : st.memtable_limit ≤ (dinsert st.memtable k' v').length
  · rw [if_pos hc]
    exact TreeWF_flush h _ hwf1
  · rw [if_neg hc]
    exact hwf1

theorem keyVal_put_other (h : HashFn) (st : LSMTree) (k : Key) (v : Value)
    (k' : Key) (v' : Value) (hwf : TreeWF h st) (hk : k ≤ tilde) (hne : k' ≠ k)
    (hkv : keyVal st k v) : keyVal (LSMTree.put h st k' v') k v := by
  unfold LSMTree.put
  have hwf1 : TreeWF h { st with memtable := dinsert st.memtable k' v' } :=
    ⟨dinsert_nodup_keys _ _ _ hwf.1, hwf.2⟩
  have hkv1 : keyVal { st with memtable := dinsert st.memtable k' v' } k v := by
    refine ⟨?_, hkv.2.1, ?_⟩
    · intro p hp hpk
      rcases mem_dinsert _ _ _ p hp with rfl | hp'
      · exact absurd hpk hne
      · exact hkv.1 p hp' hpk
    · rcases hkv.2.2 with hm | hp
      · exact Or.inl (by rw [dlookup_dinsert_ne _ _ _ _ hne.symm]; exact hm)
      · exact Or.inr hp
  by_cases hc : st.memtable_limit ≤ (dinsert st.memtable k' v').length
  · rw [if_pos hc]
    exact keyVal_flush h _ k v hwf1 hk hkv1
  · rw [if_neg hc]
    exact hkv1

theorem keyVal_put_self (h : HashFn) (st : LSMTree) (k : Key) (v : Value)
    (hwf : TreeWF h st) (hk : k ≤ tilde) (habs : keyAbsent st k) :
    keyVal (LSMTree.put h st k v) k v := by
  unfold LSMTree.put
  have hwf1 : TreeWF h { st with memtable := dinsert st.memtable k v } :=
    ⟨dinsert_nodup_keys _ _ _ hwf.1, hwf.2⟩
  have hkv1 : keyVal { st with memtable := dinsert st.memtable k v } k v := by
    refine ⟨?_, ?_, Or.inl (dlookup_dinsert_self _ _ _)⟩
    · intro p hp hpk
      rcases mem_dinsert _ _ _ p hp with rfl | hp'
      · rfl
      · exact absurd hpk (habs.1 p hp')
    · intro lvl hlvl t ht p hp hpk
      exact absurd hpk (habs.2 lvl hlvl t ht p hp)
  by_cases hc : st.memtable_limit ≤ (dinsert st.memtable k v).length
  · rw [if_pos hc]
    exact keyVal_flush h _ k v hwf1 hk hkv1
  · rw [if_neg hc]
    exact hkv1

theorem keyAbsent_put_other (h : HashFn) (st : LSMTree) (k : Key)
    (k' : Key) (v' : Value) (hwf : TreeWF h st) (hne : k' ≠ k)
    (habs : keyAbsent st k) : keyAbsent (LSMTree.put h st k' v') k := by
  unfold LSMTree.put
  have hwf1 : TreeWF h { st with memtable := dinsert st.memtable k' v' } :=
    ⟨dinsert_nodup_keys _ _ _ hwf.1, hwf.2⟩
  have habs1 : keyAbsent { st with memtable := dinsert st.memtable k' v' } k := by
    refine ⟨?_, habs.2⟩
    intro p hp
    rcases mem_dinsert _ _ _ p hp with rfl | hp'
    · exact hne
    · exact habs.1 p hp'
  by_cases hc : st.memtable_limit ≤ (dinsert st.memtable k' v').length
  · rw [if_pos hc]
    exact keyAbsent_flush h _ k hwf1 habs1
  · rw [if_neg hc]
    exact habs1

/-! ## Reachable-state chains -/

theorem TreeWF_new (h : HashFn) (n : Nat) : TreeWF h (LSMTree.new n) := by
  refine ⟨by simp [LSMTree.new], ?_⟩
  intro lvl hlvl
  simp [LSMTree.new] at hlvl

theorem keyAbsent_new (n : Nat) (k : Key) : keyAbsent (LSMTree.new n) k := by
  refine ⟨?_, ?_⟩
  · intro p hp
    simp [LSMTree.new] at hp
  · intro lvl hlvl
    simp [LSMTree.new] at hlvl

theorem TreeWF_applyPuts (h : HashFn) (ops : List (Key × Value)) :
    ∀ st : LSMTree, TreeWF h st → TreeWF h (applyPuts h st ops) := by
  induction ops with
  | nil => intro st hst; exact hst
  | cons p ops ih =>
    intro st hst
    exact ih _ (TreeWF_put h st p.1 p.2 hst)

theorem keyAbsent_applyPuts (h : HashFn) (k : Key) (ops : List (Key × Value))
    (hops : ∀ p ∈ ops, p.1 ≠ k) :
    ∀ st : LSMTree, TreeWF h st → keyAbsent st k → keyAbsent (applyPuts h st ops) k := by
  induction ops with
  | nil => intro st _ habs; exact habs
  | cons p ops ih =>
    intro st hst habs
    exact ih (fun q hq => hops q (List.mem_cons_of_mem _ hq)) _
      (TreeWF_put h st p.1 p.2 hst)
      (keyAbsent_put_other h st k p.1 p.2 hst (hops p (List.mem_cons_self _ _)) habs)

theorem keyVal_applyPuts (h : HashFn) (k : Key) (v : Value) (hk : k ≤ tilde)
    (ops : List (Key × Value)) (hops : ∀ p ∈ ops, p.1 ≠ k) :
    ∀ st : LSMTree, TreeWF h st → keyVal st k v → keyVal (applyPuts h st ops) k v := by
  induction ops with
  | nil => intro st _ hkv; exact hkv
  | cons p ops ih =>
    intro st hst hkv
    exact ih (fun q hq => hops q (List.mem_cons_of_mem _ hq)) _
      (TreeWF_put h st p.1 p.2 hst)
      (keyVal_put_other h st k v p.1 p.2 hst hk (hops p (List.mem_cons_self _ _)) hkv)

/-! ## Reachable keys across levels -/

theorem mem_lvlKeys (lvl : List SST) (k : Key) :
    k ∈ lvlKeys lvl ↔ ∃ t ∈ lvl, k ∈ t.records.map Prod.fst := by
  unfold lvlKeys
  induction lvl with
  | nil => simp
  | cons t ts ih =>
    simp only [List.foldr_cons, List.mem_append, ih, List.mem_cons]
    constructor
    · rintro (hk | ⟨t', ht', hk⟩)
      · exact ⟨t, Or.inl rfl, hk⟩
      · exact ⟨t', Or.inr ht', hk⟩
    · rintro ⟨t', rfl | ht', hk⟩
      · exact Or.inl hk
      · exact Or.inr ⟨t', ht', hk⟩

theorem mem_levelKeys_list (levels : List (List SST)) (k : Key) :
    k ∈ levels.foldr (fun lvl acc => lvlKeys lvl ++ acc) [] ↔
      ∃ lvl ∈ levels, k ∈ lvlKeys lvl := by
  induction levels with
  | nil => simp
  | cons lvl ls ih =>
    simp only [List.foldr_cons, List.mem_append, ih, List.mem_cons]
    constructor
    · rintro (hk | ⟨lvl', hl', hk⟩)
      · exact ⟨lvl, Or.inl rfl, hk⟩
      · exact ⟨lvl', Or.inr hl', hk⟩
    · rintro ⟨lvl', rfl | hl', hk⟩
      · exact Or.inl hk
      · exact Or.inr ⟨lvl', hl', hk⟩

theorem mem_levelKeys (st : LSMTree) (k : Key) :
    k ∈ levelKeys st ↔ ∃ lvl ∈ st.levels, k ∈ lvlKeys lvl :=
  mem_levelKeys_list st.levels k

theorem exists_mem_iff_index (levels : List (List SST)) (P : List SST → Prop) :
    (∃ lvl ∈ levels, P lvl) ↔ ∃ i, i < levels.length ∧ P (levels.getD i []) := by
  constructor
  · rintro ⟨lvl, hlvl, hP⟩
    obtain ⟨i, hi, hEq⟩ := List.mem_iff_getElem.1 hlvl
    refine ⟨i, hi, ?_⟩
    rwa [List.getD_eq_getElem?_getD, List.getElem?_eq_getElem hi, Option.getD_some, hEq]
  · rintro ⟨i, hi, hP⟩
    exact ⟨levels.getD i [], getD_mem_of_lt _ _ _ hi, hP⟩

theorem merged_keys_cases (h : HashFn) (st : LSMTree) (level : Nat) (k : Key)
    (hkM : k ∈ (compactMerged h st level).map Prod.fst) :
    (∃ t ∈ st.levels.getD level [], k ∈ (SST.range h t [] tilde).map Prod.fst) ∨
      (level + 1 < st.levels.length ∧
        ∃ t ∈ st.levels.getD (level + 1) [], k ∈ (SST.range h t [] tilde).map Prod.fst) := by
  unfold compactMerged at hkM
  by_cases hc : level + 1 < st.levels.length
  · rw [if_pos hc, mem_keys_gatherTables] at hkM
    rcases hkM with h1 | h2
    · rw [mem_keys_gatherTables] at h1
      rcases h1 with h0 | hl
      · simp at h0
      · exact Or.inl hl
    · exact Or.inr ⟨hc, h2⟩
  · rw [if_neg hc, mem_keys_gatherTables] at hkM
    rcases hkM with h0 | hl
    · simp at h0
    · exact Or.inl hl

/-! ## Empty ranges -/

theorem SST.range_empty_of_lt (h : HashFn) (t : SST) (s e : Key) (he : e < s) :
    SST.range h t s e = [] := by
  have hle := bisectRight_le_bisectLeft_of_lt (t.records.map Prod.fst) s e he
  show (((t.records.map Prod.fst).drop (bisectLeft (t.records.map Prod.fst) s)).take
      (bisectRight (t.records.map Prod.fst) e - bisectLeft (t.records.map Prod.fst) s)).foldl
      (fun acc k =>
        match SST.get h t k with
        | some v => acc ++ [(k, v)]
        | none => acc) [] = []
  rw [Nat.sub_eq_zero_of_le hle]
  simp

theorem foldl_memtable_empty (ms : List (Key × Value)) (s e : Key) (he : e < s) :
    ∀ d : List (Key × Value),
      ms.foldl (fun d p => if s ≤ p.1 ∧ p.1 ≤ e then dinsert d p.1 p.2 else d) d = d := by
  induction ms with
  | nil => intro d; rfl
  | cons p ms ih =>
    intro d
    have hc : ¬(s ≤ p.1 ∧ p.1 ≤ e) := fun hc => absurd (le_trans hc.1 hc.2) (not_le.2 he)
    simp only [List.foldl_cons, if_neg hc]
    exact ih d

theorem foldl_levels_empty (h : HashFn) (s e : Key) (lvls : List (List SST))
    (hempty : ∀ lvl ∈ lvls, ∀ t ∈ lvl, SST.range h t s e = []) :
    ∀ d : List (Key × Value),
      lvls.foldl (fun d lvl => lvl.foldl
        (fun d t => (SST.range h t s e).foldl (fun d p => dinsert d p.1 p.2) d) d) d = d := by
  induction lvls with
  | nil => intro d; rfl
  | cons lvl ls ih =>
    intro d
    have hinner : ∀ lvl' : List SST, (∀ t ∈ lvl', SST.range h t s e = []) → ∀ d',
        lvl'.foldl (fun d t => (SST.range h t s e).foldl (fun d p => dinsert d p.1 p.2) d) d'
          = d' := by
      intro lvl'
      induction lvl' with
      | nil => intro _ d'; rfl
      | cons t ts iht =>
        intro hts d'
        simp only [List.foldl_cons, hts t (List.mem_cons_self _ _), List.foldl_nil]
        exact iht (fun t' ht' => hts t' (List.mem_cons_of_mem _ ht')) d'
    simp only [List.foldl_cons]
    rw [hinner lvl (hempty lvl (List.mem_cons_self _ _)) d]
    exact ih (fun lvl' hl' t ht => hempty lvl' (List.mem_cons_of_mem _ hl') t ht) d

/-! ## Byte-level build invariants -/

theorem buildData_keys (l : List (Key × Value)) :
    ∀ off, ((buildData l off).2).map Prod.fst = l.map Prod.fst := by
  induction l with
  | nil => intro off; rfl
  | cons p t ih =>
    intro off
    obtain ⟨k, v⟩ := p
    simp only [buildData, List.map_cons]
    rw [ih]

theorem build_index_keys (h : HashFn) (data : List (Key × Value)) :
    (SSTable.build h data).index.map Prod.fst = (sortByKey data).map Prod.fst :=
  buildData_keys (sortByKey data) 0

theorem build_bloom (h : HashFn) (data : List (Key × Value)) :
    (SSTable.build h data).bloom = some (bloomOf h ((sortByKey data).map Prod.fst)) := rfl

theorem bisect_find_keys (keys : List Key) (k : Key)
    (hs : List.Pairwise (fun a b : Key => a ≤ b) keys) (hk : k ∈ keys) :
    bisectLeft keys k < keys.length ∧ keys.getD (bisectLeft keys k) [] = k := by
  induction keys with
  | nil => simp at hk
  | cons a t ih =>
    have hpw : ∀ b ∈ t, a ≤ b := (List.pairwise_cons.1 hs).1
    have ht := (List.pairwise_cons.1 hs).2
    rw [bisectLeft_cons]
    by_cases hlt : a < k
    · have hne : k ≠ a := fun hc => absurd (hc ▸ hlt) (lt_irrefl _)
      have hkt : k ∈ t := by
        rcases List.mem_cons.1 hk with hc | hc
        · exact absurd hc hne
        · exact hc
      have hcore := ih ht hkt
      rw [if_pos hlt]
      exact ⟨Nat.succ_lt_succ hcore.1, by simpa using hcore.2⟩
    · have hak : a = k := by
        rcases List.mem_cons.1 hk with hc | hc
        · exact hc.symm
        · exact le_antisymm (hpw k hc) (not_lt.1 hlt)
      rw [if_neg hlt]
      exact ⟨Nat.succ_pos _, by simpa using hak⟩

/-- The byte-level `range` loop propagates an error raised by `get` on
its first window key. -/
theorem foldlM_range_error (h : HashFn) (t : SSTable) (k0 : Key) (ks : List Key)
    (acc : List (Key × Value)) (hk0 : SSTable.get h t k0 = .error .missingFile) :
    (k0 :: ks).foldlM (fun acc k =>
      (match SSTable.get h t k with
      | .error er => .error er
      | .ok none => .ok acc
      | .ok (some v) => .ok (acc ++ [(k, v)]) : Except Err (List (Key × Value)))) acc =
      .error .missingFile := by
  rw [List.foldlM_cons]
  simp only [hk0]
  rfl

/-! ## Put below the flush threshold -/

theorem put_below_limit (h : HashFn) (st : LSMTree) (k : Key) (v : Value)
    (hc : ¬ st.memtable_limit ≤ (dinsert st.memtable k v).length) :
    LSMTree.put h st k v = { st with memtable := dinsert st.memtable k v } := by
  simp only [LSMTree.put]
  rw [if_neg hc]

/-! # The claims -/

/-- C1: the spec says the compaction merge applies newest-wins with
records of level `L` overriding records of level `L+1`.  The code
gathers `L` first and `L+1` second into a dict whose later assignments
win, so the `L+1` (older) record overrides the `L` (newer) one: with
`L0 = [table {x ↦ [2]}]` and `L1 = [table {x ↦ [1]}]`, the single output
table at `L+1` contains `(x, [1])`, not the winning pair `(x, [2])` the
claim requires. -/
theorem C1_compact_prefers_next_level_at_input :
    ((LSMTree.compact_level h0
        ⟨[], 100, [[mkSST h0 [([120], [2])]], [mkSST h0 [([120], [1])]]]⟩ 0).levels.getD 1
          []).map SST.records = [[([120], [1])]] ∧ ([1] : Value) ≠ [2] := by
  decide

/-- C2: the spec says that after `put(K, V1); put(K, V2)` (no later put
of `K`), `get(K) = V2` regardless of intervening flushes.  With
`memtable_limit = 1` each put flushes, leaving `L0 = [T(V1), T(V2)]`;
`get` scans L0 in forward order and returns the *first* hit, so it
returns `V1`, not `V2`. -/
theorem C2_overwrite_lost_after_flushes :
    LSMTree.get h0 (LSMTree.put h0 (LSMTree.put h0 (LSMTree.new 1) [120] [1]) [120] [2]) [120] =
      some [1] ∧ ([1] : Value) ≠ [2] := by
  decide

/-- C3, counterexample: the key `"~~"` (`[126,126]`), lexicographically
greater than the compaction sentinel `"~"`, is put exactly once with
value `[9]`; two further puts of other keys (limit 1) force three
flushes and a compaction, whose `range("", "~")` scan drops the key.
`get` then returns `none`, not `some [9]` as the claim requires. -/
theorem C3_counterexample_tilde_key :
    LSMTree.get h0 (applyPuts h0 (LSMTree.new 1)
        [([126, 126], [9]), ([97], [1]), ([98], [2])]) [126, 126] = none ∧
      (none : Option Value) ≠ some [9] := by
  decide

/-- C3, amended: for every key `K ≤ "~"` put exactly once with value
`V` — any puts of other keys before and after, with any
`memtable_limit`, hence any pattern of flushes and compactions —
`get(K)` returns `V`. -/
theorem C3_point_read_consistency (h : HashFn) (n : Nat)
    (pre post : List (Key × Value)) (k : Key) (v : Value) (hk : k ≤ tilde)
    (hpre : ∀ p ∈ pre, p.1 ≠ k) (hpost : ∀ p ∈ post, p.1 ≠ k) :
    LSMTree.get h
      (applyPuts h (LSMTree.put h (applyPuts h (LSMTree.new n) pre) k v) post) k = some v := by
  have hwf0 := TreeWF_new h n
  have habs0 := keyAbsent_new n k
  have hwf1 := TreeWF_applyPuts h pre _ hwf0
  have habs1 := keyAbsent_applyPuts h k pre hpre _ hwf0 habs0
  have hwf2 := TreeWF_put h _ k v hwf1
  have hkv2 := keyVal_put_self h _ k v hwf1 hk habs1
  have hwf3 := TreeWF_applyPuts h post _ hwf2
  have hkv3 := keyVal_applyPuts h k v hk post hpost _ hwf2 hkv2
  exact get_of_keyVal h _ k v hwf3 hkv3

theorem C3_point_read_consistency_witness :
    LSMTree.get h0
      (applyPuts h0 (LSMTree.put h0 (applyPuts h0 (LSMTree.new 1) [([97], [1])]) [120] [9])
        [([98], [2])]) [120] = some [9] :=
  C3_point_read_consistency h0 1 [([97], [1])] [([98], [2])] [120] [9]
    (by decide) (by decide) (by decide)

/-- C4: the spec says `get` scans L0 in reverse insertion order (highest
index, i.e. most recently flushed, first).  The code iterates
`for sst in self.levels[i]` in forward order, so with two L0 tables both
holding key `y` the value of the *oldest* table (index 0) is returned. -/
theorem C4_l0_scanned_oldest_first :
    LSMTree.get h0 ⟨[], 100, [[mkSST h0 [([121], [5])], mkSST h0 [([121], [6])]]]⟩ [121] =
      some [5] ∧ ([5] : Value) ≠ [6] := by
  decide

/-- C5, counterexample: the key `"~~" = [126,126]` is stored in an L0
table; `compact(0)` gathers via `range("", "~")`, which excludes it, so
the key is reachable before the compaction and unreachable after —
contradicting the claim that no key of levels `L`/`L+1` becomes
unreachable. -/
theorem C5_counterexample_tilde_key :
    [126, 126] ∈ levelKeys ⟨[], 100, [[mkSST h0 [([126, 126], [9])]]]⟩ ∧
      [126, 126] ∉ levelKeys
        (LSMTree.compact_level h0 ⟨[], 100, [[mkSST h0 [([126, 126], [9])]]]⟩ 0) := by
  decide

/-- C5, amended: for every well-formed tree state and every key
`k ≤ "~"`, `k` is reachable across the levels after `compact(L)` iff it
was reachable before (no key is lost and none appears; there are no
tombstones, so the "minus shadowed keys" set is empty). -/
theorem C5_compaction_key_conservation (h : HashFn) (st : LSMTree) (level : Nat)
    (k : Key) (hwf : TreeWF h st) (hk : k ≤ tilde) :
    (k ∈ levelKeys (LSMTree.compact_level h st level) ↔ k ∈ levelKeys st) := by
  by_cases hcond : st.levels.length ≤ level ∨ st.levels.getD level [] = []
  · unfold LSMTree.compact_level
    rw [if_pos hcond]
  · push_neg at hcond
    obtain ⟨hlen, hne⟩ := hcond
    rw [compact_level_eq h st level hlen hne]
    set M := compactMerged h st level with hM
    set L1 := (if st.levels.length ≤ level + 1 then st.levels ++ [[]] else st.levels) with hL1
    set newT := mkSST h M with hnewT
    have hL1len : level + 1 < L1.length := by
      rw [hL1]
      by_cases hc : st.levels.length ≤ level + 1
      · rw [if_pos hc]
        simp only [List.length_append, List.length_cons, List.length_nil]
        omega
      · rw [if_neg hc]
        omega
    have hstL1 : st.levels.length ≤ L1.length := by
      rw [hL1]
      by_cases hc : st.levels.length ≤ level + 1
      · rw [if_pos hc]; simp
      · rw [if_neg hc]
    have hL1getD : ∀ j, j < st.levels.length → L1.getD j [] = st.levels.getD j [] := by
      intro j hj
      rw [hL1]
      by_cases hc : st.levels.length ≤ level + 1
      · rw [if_pos hc]
        exact getD_append_lt _ _ _ _ hj
      · rw [if_neg hc]
    have hget3 : ∀ j, ((L1.set (level + 1) [newT]).set level []).getD j ([] : List SST) =
        if level = j then [] else if level + 1 = j then [newT] else L1.getD j [] := by
      intro j
      rw [getD_set_eq_ite]
      by_cases h1 : level = j
      · rw [if_pos ⟨h1, by simpa using lt_trans (Nat.lt_succ_self level) hL1len⟩, if_pos h1]
      · rw [if_neg (by tauto), if_neg h1, getD_set_eq_ite]
        by_cases h2 : level + 1 = j
        · rw [if_pos ⟨h2, hL1len⟩, if_pos h2]
        · rw [if_neg (by tauto), if_neg h2]
    have hlen3 : ((L1.set (level + 1) [newT]).set level []).length = L1.length := by
      simp
    have hmem3 : ∀ lvl ∈ (L1.set (level + 1) [newT]).set level [],
        lvl = [] ∨ lvl = [newT] ∨ lvl ∈ st.levels := by
      intro lvl hlvl
      rcases List.mem_or_eq_of_mem_set hlvl with hlvl1 | rfl
      · rcases List.mem_or_eq_of_mem_set hlvl1 with hlvl2 | rfl
        · rw [hL1] at hlvl2
          by_cases hc : st.levels.length ≤ level + 1
          · rw [if_pos hc] at hlvl2
            rcases List.mem_append.1 hlvl2 with h' | h'
            · exact Or.inr (Or.inr h')
            · simp at h'
              exact Or.inl h'
          · rw [if_neg hc] at hlvl2
            exact Or.inr (Or.inr hlvl2)
        · exact Or.inr (Or.inl rfl)
      · exact Or.inl rfl
    have hnewKeys : ∀ k' : Key, k' ∈ newT.records.map Prod.fst ↔ k' ∈ M.map Prod.fst := by
      intro k'
      rw [hnewT, mkSST_records]
      exact (sortByKey_keys_perm M).mem_iff
    have hmemNew : [newT] ∈ (L1.set (level + 1) [newT]).set level [] := by
      have hx := getD_mem_of_lt ((L1.set (level + 1) [newT]).set level []) (level + 1) []
        (by rw [hlen3]; exact hL1len)
      rwa [hget3 (level + 1), if_neg (Nat.ne_of_lt (Nat.lt_succ_self level)), if_pos rfl] at hx
    rw [mem_levelKeys, mem_levelKeys]
    constructor
    · rintro ⟨lvl, hlvl, hkl⟩
      rcases hmem3 lvl hlvl with rfl | rfl | hlvl'
      · rw [mem_lvlKeys] at hkl
        obtain ⟨t, ht, _⟩ := hkl
        simp at ht
      · rw [mem_lvlKeys] at hkl
        obtain ⟨t, ht, hkt⟩ := hkl
        have ht' : t = newT := by simpa using ht
        subst ht'
        have hkM : k ∈ M.map Prod.fst := (hnewKeys k).1 hkt
        rcases merged_keys_cases h st level k hkM with ⟨t', ht', hkr⟩ | ⟨hc, t', ht', hkr⟩
        · have hlvl_mem : st.levels.getD level [] ∈ st.levels := getD_mem_of_lt _ _ _ hlen
          have hwt := hwf.2 _ hlvl_mem t' ht'
          exact ⟨st.levels.getD level [], hlvl_mem,
            (mem_lvlKeys _ k).2 ⟨t', ht', ((mem_range_keys_full h t' hwt k).1 hkr).1⟩⟩
        · have hlvl_mem : st.levels.getD (level + 1) [] ∈ st.levels := getD_mem_of_lt _ _ _ hc
          have hwt := hwf.2 _ hlvl_mem t' ht'
          exact ⟨st.levels.getD (level + 1) [], hlvl_mem,
            (mem_lvlKeys _ k).2 ⟨t', ht', ((mem_range_keys_full h t' hwt k).1 hkr).1⟩⟩
      · exact ⟨lvl, hlvl', hkl⟩
    · rintro ⟨lvl, hlvl, hkl⟩
      rw [mem_lvlKeys] at hkl
      obtain ⟨t, ht, hkt⟩ := hkl
      obtain ⟨i, hi, hEq⟩ := List.mem_iff_getElem.1 hlvl
      have hgetD : st.levels.getD i [] = lvl := by
        rw [List.getD_eq_getElem?_getD, List.getElem?_eq_getElem hi, Option.getD_some, hEq]
      have hwt : t.wf h := hwf.2 lvl hlvl t ht
      have htoNew : k ∈ (SST.range h t [] tilde).map Prod.fst →
          t ∈ st.levels.getD i [] → (i = level ∨ i = level + 1) →
          ∃ lvl' ∈ (L1.set (level + 1) [newT]).set level [], k ∈ lvlKeys lvl' := by
        intro hkr hti hii
        have hkM : k ∈ M.map Prod.fst := by
          rcases hii with rfl | rfl
          · exact mem_keys_merged_of_level h st i k t hti hkr
          · have hc : level + 1 < st.levels.length := hi
            exact mem_keys_merged_of_next h st level k hc t
              (by simpa using hti) hkr
        exact ⟨[newT], hmemNew,
          (mem_lvlKeys _ k).2 ⟨newT, List.mem_singleton_self _, (hnewKeys k).2 hkM⟩⟩
      have hkr : k ∈ (SST.range h t [] tilde).map Prod.fst :=
        (mem_range_keys_full h t hwt k).2 ⟨hkt, hk⟩
      by_cases hil : i = level
      · exact htoNew hkr (by rw [hgetD]; exact ht) (Or.inl hil)
      · by_cases hil1 : i = level + 1
        · exact htoNew hkr (by rw [hgetD]; exact ht) (Or.inr hil1)
        · refine ⟨lvl, ?_, (mem_lvlKeys _ k).2 ⟨t, ht, hkt⟩⟩
          have hx := getD_mem_of_lt ((L1.set (level + 1) [newT]).set level []) i []
            (by rw [hlen3]; exact lt_of_lt_of_le hi hstL1)
          rwa [hget3 i, if_neg (fun hc => hil hc.symm), if_neg (fun hc => hil1 hc.symm),
            hL1getD i hi, hgetD] at hx

theorem C5_compaction_key_conservation_witness :
    ([97] ∈ levelKeys (LSMTree.compact_level h0 ⟨[], 100, [[mkSST h0 [([97], [1])]]]⟩ 0) ↔
      [97] ∈ levelKeys ⟨[], 100, [[mkSST h0 [([97], [1])]]]⟩) :=
  C5_compaction_key_conservation h0 ⟨[], 100, [[mkSST h0 [([97], [1])]]]⟩ 0 [97]
    (by decide) (by decide)

/-- C6, counterexample: after `cleanup`, `get` on a key the table stores
does *not* treat the table as empty — the in-memory index still finds
the key, the code opens the deleted file, and the read fails
(`FileNotFoundError`), contradicting "get returns absent for every key"
and "no read after cleanup fails". -/
theorem C6_counterexample_get_after_cleanup :
    SSTable.get h0 (SSTable.build h0 [([97], [49])]).cleanup [97] = .error .missingFile ∧
      (Except.error Err.missingFile : Except Err (Option Value)) ≠ .ok none := by
  decide

/-- C6, amended: after `cleanup`, `size_bytes` is 0 and `get` returns
absent for keys the table does not store, but `get` on a stored key
fails with a missing-file error instead of treating the table as empty;
likewise `range` returns no pairs when its bisect window holds no
stored key and fails with the missing-file error when it holds one.
(Hypotheses: the invariants `_build` establishes — a filter covering
the index keys and a sorted index.) -/
theorem C6_cleanup_read_behaviour (h : HashFn) (t : SSTable) (bl : BloomFilter)
    (k s e : Key) (hbl : t.bloom = some bl)
    (hsorted : List.Pairwise (fun a b : Key => a ≤ b) (t.index.map Prod.fst))
    (hsound : ∀ k' ∈ t.index.map Prod.fst, bl.might_contain h k' = true) :
    t.cleanup.size_bytes = 0 ∧
      (k ∈ t.index.map Prod.fst → SSTable.get h t.cleanup k = .error .missingFile) ∧
      (k ∉ t.index.map Prod.fst → SSTable.get h t.cleanup k = .ok none) ∧
      ((∀ k' ∈ t.index.map Prod.fst, ¬(s ≤ k' ∧ k' ≤ e)) →
        SSTable.range h t.cleanup s e = .ok []) ∧
      ((∃ k' ∈ t.index.map Prod.fst, s ≤ k' ∧ k' ≤ e) →
        SSTable.range h t.cleanup s e = .error .missingFile) := by
  obtain ⟨idx, bloom, file⟩ := t
  simp only [SSTable.cleanup] at *
  subst hbl
  have hgetStored : ∀ k' ∈ idx.map Prod.fst,
      SSTable.get h ⟨idx, some bl, none⟩ k' = .error .missingFile := by
    intro k' hk'
    have hfind := bisect_find_keys _ k' hsorted hk'
    simp only [SSTable.get, hsound k' hk', if_true, if_pos hfind]
  refine ⟨rfl, fun hk => hgetStored k hk, ?_, ?_, ?_⟩
  · intro hk
    simp only [SSTable.get]
    by_cases hmc : bl.might_contain h k = true
    · rw [if_pos hmc]
      by_cases hcond : bisectLeft (idx.map Prod.fst) k < (idx.map Prod.fst).length ∧
          (idx.map Prod.fst).getD (bisectLeft (idx.map Prod.fst) k) [] = k
      · exfalso
        apply hk
        rw [← hcond.2]
        exact getD_mem_of_lt _ _ _ hcond.1
      · rw [if_neg hcond]
    · rw [if_neg hmc]
  · -- range over a window with no stored key: no pairs, no error
    intro hnone
    have hnil : (idx.map Prod.fst).filter (fun k' => decide (s ≤ k') && decide (k' ≤ e))
        = [] := by
      refine List.filter_eq_nil_iff.2 fun k' hk' => ?_
      simpa using hnone k' hk'
    show (((idx.map Prod.fst).drop (bisectLeft (idx.map Prod.fst) s)).take
        (bisectRight (idx.map Prod.fst) e - bisectLeft (idx.map Prod.fst) s)).foldlM
        (fun acc k' =>
          (match SSTable.get h ⟨idx, some bl, none⟩ k' with
          | .error er => .error er
          | .ok none => .ok acc
          | .ok (some v) => .ok (acc ++ [(k', v)]) : Except Err (List (Key × Value)))) [] =
      .ok []
    rw [bisect_window_eq_filter (idx.map Prod.fst) s e hsorted, hnil]
    rfl
  · -- range over a window with a stored key: the first fetch fails
    rintro ⟨k', hk', hske⟩
    show (((idx.map Prod.fst).drop (bisectLeft (idx.map Prod.fst) s)).take
        (bisectRight (idx.map Prod.fst) e - bisectLeft (idx.map Prod.fst) s)).foldlM
        (fun acc k'' =>
          (match SSTable.get h ⟨idx, some bl, none⟩ k'' with
          | .error er => .error er
          | .ok none => .ok acc
          | .ok (some v) => .ok (acc ++ [(k'', v)]) : Except Err (List (Key × Value)))) [] =
      .error .missingFile
    rw [bisect_window_eq_filter (idx.map Prod.fst) s e hsorted]
    cases hF : (idx.map Prod.fst).filter (fun k'' => decide (s ≤ k'') && decide (k'' ≤ e)) with
    | nil =>
      exfalso
      have hmemf : k' ∈ (idx.map Prod.fst).filter
          (fun k'' => decide (s ≤ k'') && decide (k'' ≤ e)) :=
        List.mem_filter.2 ⟨hk', by simp [hske.1, hske.2]⟩
      rw [hF] at hmemf
      simp at hmemf
    | cons k0 rest =>
      have hk0 : k0 ∈ idx.map Prod.fst :=
        List.mem_of_mem_filter (hF ▸ List.mem_cons_self k0 rest)
      exact foldlM_range_error h ⟨idx, some bl, none⟩ k0 rest [] (hgetStored k0 hk0)

theorem C6_cleanup_read_behaviour_witness :
    SSTable.get h0 (SSTable.build h0 [([97], [49])]).cleanup [98] = .ok none ∧
      (SSTable.build h0 [([97], [49])]).cleanup.size_bytes = 0 ∧
      SSTable.range h0 (SSTable.build h0 [([97], [49])]).cleanup [97] [97] =
        .error .missingFile ∧
      SSTable.range h0 (SSTable.build h0 [([97], [49])]).cleanup [98] [99] = .ok [] :=
  ⟨(C6_cleanup_read_behaviour h0 (SSTable.build h0 [([97], [49])]) (bloomOf h0 [[97]])
      [98] [97] [97] (by decide) (by decide) (by decide)).2.2.1 (by decide),
   (C6_cleanup_read_behaviour h0 (SSTable.build h0 [([97], [49])]) (bloomOf h0 [[97]])
      [98] [97] [97] (by decide) (by decide) (by decide)).1,
   (C6_cleanup_read_behaviour h0 (SSTable.build h0 [([97], [49])]) (bloomOf h0 [[97]])
      [97] [97] [97] (by decide) (by decide) (by decide)).2.2.2.2 (by decide),
   (C6_cleanup_read_behaviour h0 (SSTable.build h0 [([97], [49])]) (bloomOf h0 [[97]])
      [98] [98] [99] (by decide) (by decide) (by decide)).2.2.2.1 (by decide)⟩

/-- C7: the spec says oversized keys/values (longer than `2^32 - 1`
bytes) are rejected at `put` with an Overflow error.  `put` performs no
length validation at all: a key of length `2^32` is accepted into the
memtable (with `memtable_limit = 100` no flush occurs, so nothing else
rejects it either). -/
theorem C7_put_accepts_oversized_key :
    (LSMTree.put h0 (LSMTree.new 100) (List.replicate (2 ^ 32) 0) [1]).memtable =
      [(List.replicate (2 ^ 32) 0, [1])] ∧
      (List.replicate (2 ^ 32) (0 : Nat)).length = 2 ^ 32 ∧ 2 ^ 32 - 1 < 2 ^ 32 := by
  refine ⟨?_, List.length_replicate _ _, by norm_num⟩
  have hc : ¬((LSMTree.new 100).memtable_limit ≤
      (dinsert (LSMTree.new 100).memtable (List.replicate (2 ^ 32) 0) [1]).length) := by
    norm_num [LSMTree.new, dinsert]
  rw [put_below_limit h0 _ _ _ hc]
  rfl

/-- C8: the spec's round-trip property fails.  `_build` writes the
serialized filter *after* the 4-byte index size, but `_load` reads the
index size from the *last 4 bytes of the file* — which are the final
bytes of the filter's bit array.  For `S = [("a", "1")]` (and the
modelled hash) those bytes are zero, so the reopened table parses an
empty index and no filter: its range scan over `[min(S), max(S)]`
returns `[]`, not `S`, whereas the original handle returns `S`. -/
theorem C8_reopen_loses_table_at_input :
    SSTable.load (SSTable.build h0 [([97], [49])]).file =
        .ok ⟨[], none, (SSTable.build h0 [([97], [49])]).file⟩ ∧
      SSTable.range h0 ⟨[], none, (SSTable.build h0 [([97], [49])]).file⟩ [97] [97] = .ok [] ∧
      SSTable.range h0 (SSTable.build h0 [([97], [49])]) [97] [97] = .ok [([97], [49])] := by
  decide

/-- C9: every key stored in a built SSTable was added to its filter, and
`might_contain` returns true for it — the filter admits no false
negatives, for every hash family and every record set. -/
theorem C9_filter_soundness (h : HashFn) (data : List (Key × Value)) (k : Key)
    (hk : k ∈ data.map Prod.fst) :
    ∃ bl, (SSTable.build h data).bloom = some bl ∧ bl.might_contain h k = true := by
  refine ⟨bloomOf h ((sortByKey data).map Prod.fst), rfl, ?_⟩
  exact bloomOf_sound h _ k ((sortByKey_keys_perm data).mem_iff.2 hk)

theorem C9_filter_soundness_witness :
    ∃ bl, (SSTable.build h0 [([97], [49]), ([98], [50])]).bloom = some bl ∧
      bl.might_contain h0 [98] = true :=
  C9_filter_soundness h0 [([97], [49]), ([98], [50])] [98] (by decide)

/-- C10: for any tree state whose table indexes are sorted (the
invariant every reachable state satisfies) and any bounds with
`start > end`, `range(start, end)` returns the empty sequence (and,
being total, raises no error): the memtable filter admits nothing and
every per-table bisect window is empty. -/
theorem C10_inverted_range_empty (h : HashFn) (st : LSMTree)
    (_hst : ∀ lvl ∈ st.levels, ∀ t ∈ lvl, recsSorted t.records)
    (s e : Key) (he : e < s) :
    LSMTree.range h st s e = [] := by
  have hranges : ∀ lvl ∈ st.levels.reverse, ∀ t ∈ lvl, SST.range h t s e = [] :=
    fun lvl _ t _ => SST.range_empty_of_lt h t s e he
  show sortByKey ((st.levels.reverse).foldl
      (fun d lvl => lvl.foldl
        (fun d t => (SST.range h t s e).foldl (fun d p => dinsert d p.1 p.2) d) d)
      (st.memtable.foldl (fun d p => if s ≤ p.1 ∧ p.1 ≤ e then dinsert d p.1 p.2 else d) [])) = []
  rw [foldl_memtable_empty st.memtable s e he [],
    foldl_levels_empty h s e st.levels.reverse hranges []]
  rfl

theorem C10_inverted_range_empty_witness :
    LSMTree.range h0 (LSMTree.put h0 (LSMTree.new 10) [97] [1]) [98] [97] = [] :=
  C10_inverted_range_empty h0 (LSMTree.put h0 (LSMTree.new 10) [97] [1])
    (by decide) [98] [97] (by decide)
